import Mathlib

/-!
# Buzzer driver (`src/buzzer.c`): pattern encoding and tick-driven playback

A shallow embedding of `buzzer.c`.  The module-level variables and the function
statics of `UpdateBuzzer` become the fields of one record, every C function
becomes a function on that record.

Machine integers are natural numbers with explicit reduction:
* `uint8_t`  : values below `2 ^ 8`,
* `uint16_t` : values below `2 ^ 16`; the target is an 8-bit AVR (`BUZZER_DDR`,
  `BUZZER_PORT`), where `int` has 16 bits, so `duration * 16` and
  `2 * (duration * 16)` are `unsigned int` products reduced modulo `2 ^ 16`,
* `long` / `uint32_t` : 32 bits, arithmetic reduced modulo `2 ^ 32`.
-/

namespace Buzzer

/-! ## Machine arithmetic -/

/-- The C expression `a * b` on `unsigned int` (16 bits on the target). -/
def mulU16 (a b : Nat) : Nat := (a * b) % 2 ^ 16

/-- The C expression `1L << s` kept to 32 bits.  For `s ≥ 32` the C shift is undefined;
the model takes the low 32 bits of the unbounded shift (the value the shift loop of the
target leaves), which is `0`. -/
def shl1L (s : Nat) : Nat := (1 <<< s) % 2 ^ 32

/-- The C expression `x - 1` on a 32-bit value (two's complement, wraps at `0`). -/
def dec32 (x : Nat) : Nat := (2 ^ 32 - 1 + x) % 2 ^ 32

/-- The C expression `r--` on a `uint8_t` (wraps at `0`). -/
def dec8 (r : Nat) : Nat := (255 + r) % 256

/-- Modelled from the spec: `union U32Bytes` of `union_types.h` (not in the source
tree), a 32-bit word `u32` overlaid with `uint8_t bytes[4]`, little endian: `bytes[i]`
is bits `8 * i .. 8 * i + 7` of `u32`. -/
def bytes (u32 i : Nat) : Nat := (u32 / 256 ^ i) % 256

/-! ## State -/

/-- The variables of `buzzer.c`: the three module-level variables, the three statics of
`UpdateBuzzer`, and the level of the buzzer pin (`BUZZER_PORT & BUZZER_PIN`). -/
structure State where
  /-- The `static volatile uint32_t pending_pattern_`. -/
  pending_pattern_ : Nat
  /-- The `static volatile uint8_t pending_repetions_`. -/
  pending_repetions_ : Nat
  /-- The `static volatile uint8_t repetitions_`. -/
  repetitions_ : Nat
  /-- The `static union U32Bytes pattern` of `UpdateBuzzer`, as its `u32` member. -/
  pattern : Nat
  /-- The `static uint8_t mask` of `UpdateBuzzer`. -/
  mask : Nat
  /-- The `static uint8_t byte` of `UpdateBuzzer`. -/
  byte : Nat
  /-- The level of the buzzer pin: `true` after `BuzzerOn`, `false` after `BuzzerOff`. -/
  out : Bool
deriving DecidableEq, Repr

/-- The state after program start: every static is zero-initialised, the pin is low. -/
def init : State :=
  { pending_pattern_ := 0, pending_repetions_ := 0, repetitions_ := 0,
    pattern := 0, mask := 0, byte := 0, out := false }

/-- The function `BuzzerOn`: `BUZZER_PORT |= BUZZER_PIN`. -/
def BuzzerOn (s : State) : State := { s with out := true }

/-- The function `BuzzerOff`: `BUZZER_PORT &= ~BUZZER_PIN`. -/
def BuzzerOff (s : State) : State := { s with out := false }

/-! ## Pattern encoders -/

/-- The shift amount `(duration * 16) / 1000` of `BeepDuration` and `BeepNTimes`. -/
def ticksOf (duration : Nat) : Nat := mulU16 duration 16 / 1000

/-- The shift amount `2 * (duration * 16) / 1000` of `BeepNTimes`. -/
def ticks2Of (duration : Nat) : Nat := mulU16 2 (mulU16 duration 16) / 1000

/-- The function `BeepDuration`:
`pending_pattern_ = (1L << ((duration * 16) / 1000)) - 1; pending_repetions_ = 1;` -/
def BeepDuration (duration : Nat) (s : State) : State :=
  { s with
    pending_pattern_ := dec32 (shl1L (ticksOf duration)),
    pending_repetions_ := 1 }

/-- The function `BeepNTimes`:
`pending_pattern_ = ((1L << (2 * (duration * 16) / 1000)) - 1)
  ^ ((1L << ((duration * 16) / 1000)) - 1); pending_repetions_ = n;` -/
def BeepNTimes (n duration : Nat) (s : State) : State :=
  { s with
    pending_pattern_ := dec32 (shl1L (ticks2Of duration)) ^^^ dec32 (shl1L (ticksOf duration)),
    pending_repetions_ := n }

/-- The function `BeepPattern`:
`pending_pattern_ = beep_pattern; pending_repetions_ = 1;` -/
def BeepPattern (beep_pattern : Nat) (s : State) : State :=
  { s with pending_pattern_ := beep_pattern, pending_repetions_ := 1 }

/-! ## Playback engine -/

/-- The loop `for (byte = 3; !pattern.bytes[byte]; byte--) continue;` started at index
`b`: the first index from `b` downwards whose byte is nonzero.  Below index `0` the
`uint8_t` index wraps to `255` and the read leaves the array: `none`. -/
def findByte (u32 : Nat) : Nat → Option Nat
  | 0 => if bytes u32 0 ≠ 0 then some 0 else none
  | b + 1 => if bytes u32 (b + 1) ≠ 0 then some (b + 1) else findByte u32 b

/-- The loop `for (mask = 0x80; !(pattern.bytes[byte] & mask); mask >>= 1) continue;`
entered with the given `mask`, run for at most `fuel` tests of the condition.  Eight
tests cover the masks `0x80 .. 0x01`; after them the mask is `0`, the condition stays
true and the loop never ends: `none`. -/
def findMask (b : Nat) : Nat → Nat → Option Nat
  | 0, _ => none
  | fuel + 1, mask =>
    if b &&& mask ≠ 0 then some mask else findMask b fuel (mask / 2)

/-- Lines 110-125 of `UpdateBuzzer`: shift the mask bit; when it has left the byte,
move on to the next byte or to the next repetition. -/
def advance (s : State) : State :=
  let s1 := { s with mask := s.mask / 2 }
  if s1.mask = 0 then
    if s1.byte ≠ 0 then { s1 with byte := s1.byte - 1, mask := 0x80 }
    else { s1 with repetitions_ := dec8 s1.repetitions_ }
  else s1

/-- Lines 90-130 of `UpdateBuzzer`: the `if (repetitions_) ... else BuzzerOff();` part.
A read of `pattern.bytes[byte]` outside the array gives `none`. -/
def play (s : State) : Option State :=
  if s.repetitions_ ≠ 0 then
    if s.mask = 0 then
      match findByte s.pattern 3 with
      | none => none
      | some b =>
        match findMask (bytes s.pattern b) 8 0x80 with
        | none => none
        | some m => some (advance (BuzzerOn { s with byte := b, mask := m }))
    else if 3 < s.byte then none
    else if bytes s.pattern s.byte &&& s.mask ≠ 0 then some (advance (BuzzerOn s))
    else some (advance (BuzzerOff s))
  else some (BuzzerOff s)

/-- The function `UpdateBuzzer`: load the pending request when the engine is idle
(returning at once when its pattern is zero), then play one tick. -/
def UpdateBuzzer (s : State) : Option State :=
  if s.pending_repetions_ ≠ 0 ∧ s.repetitions_ = 0 then
    let s1 := { s with
      pattern := s.pending_pattern_,
      repetitions_ := s.pending_repetions_,
      pending_repetions_ := 0 }
    if s1.pattern = 0 then some { s1 with repetitions_ := 0 }
    else play s1
  else play s

/-- The loop condition of `WaitForBuzzerToComplete`: `pending_repetions_ || repetitions_`. -/
def waiting (s : State) : Bool :=
  decide (s.pending_repetions_ ≠ 0) || decide (s.repetitions_ ≠ 0)

/-- The state after `k` successive calls of `UpdateBuzzer`. -/
def ticks : Nat → State → Option State
  | 0, s => some s
  | k + 1, s => (ticks k s).bind UpdateBuzzer

/-- The three ways of submitting a request. -/
inductive Request where
  | duration (d : Nat)
  | nTimes (n d : Nat)
  | pattern (v : Nat)
deriving DecidableEq, Repr

/-- The call a request stands for. -/
def submit : Request → State → State
  | .duration d => BeepDuration d
  | .nTimes n d => BeepNTimes n d
  | .pattern v => BeepPattern v

/-- The arguments of a request fit their C types (`uint16_t`, `uint8_t`, `uint32_t`). -/
def Request.WellTyped : Request → Prop
  | .duration d => d < 2 ^ 16
  | .nTimes n d => n < 2 ^ 8 ∧ d < 2 ^ 16
  | .pattern v => v < 2 ^ 32

/-- The states the program can be in: the initial state, and every state obtained from
a reachable one by a submit call or by a call of `UpdateBuzzer`. -/
inductive Reachable : State → Prop
  | init : Reachable init
  | submit {s : State} (q : Request) : q.WellTyped → Reachable s → Reachable (submit q s)
  | tick {s s1 : State} : Reachable s → UpdateBuzzer s = some s1 → Reachable s1

/-- The number of halvings that bring `p` to `0`, at most `fuel` of them. -/
def bitLengthAux : Nat → Nat → Nat
  | 0, _ => 0
  | fuel + 1, p => if p = 0 then 0 else bitLengthAux fuel (p / 2) + 1

/-- The bit length of a pattern: index of its most-significant set bit plus one (`0` for
the pattern `0`). -/
def bitLength (p : Nat) : Nat := bitLengthAux p p

/-- The pin levels after each of the first `k` calls of `UpdateBuzzer`, oldest first
(`none` where the call has no result). -/
def outputs (k : Nat) (s : State) : List (Option Bool) :=
  (List.range' 1 k).map (fun j => (ticks j s).map State.out)

/-- The state one tick into the playback of `BeepPattern(0b101)` after start: the
cursor stands on bit `1`. -/
def midPlayback : State :=
  { pending_pattern_ := 5, pending_repetions_ := 0, repetitions_ := 1,
    pattern := 5, mask := 2, byte := 0, out := true }

/-- The state one tick into the playback of `BeepPattern(0b11)` after start: the cursor
stands on bit `0`, the last bit. -/
def playingLastBit : State :=
  { pending_pattern_ := 3, pending_repetions_ := 0, repetitions_ := 1,
    pattern := 3, mask := 1, byte := 0, out := true }

/-- The state `playingLastBit` with the request `BeepPattern(0b101)` waiting. -/
def lastTick : State := BeepPattern 5 playingLastBit

/-- The state after the tick of `lastTick`: the engine is idle, the pin is still ON and
the request waits. -/
def afterLastTick : State :=
  { pending_pattern_ := 5, pending_repetions_ := 1, repetitions_ := 0,
    pattern := 3, mask := 0, byte := 0, out := true }

/-! ## Predicates used in the proofs -/

/-- The cursor `(b, m)` stands on the most-significant set bit of the 32-bit word `p`:
`b` is the index of the most-significant nonzero byte and `m` is the single-bit mask of
the highest set bit of that byte. -/
def MsbCursor (p b m : Nat) : Prop :=
  b ≤ 3 ∧ bytes p b ≠ 0 ∧ (∀ c, b < c → c ≤ 3 → bytes p c = 0) ∧
  ∃ j, j < 8 ∧ m = 2 ^ j ∧ (bytes p b).testBit j = true ∧
    ∀ c, j < c → c < 8 → (bytes p b).testBit c = false

/-- The invariant of the engine: every variable is in the range of its C type, an idle
engine has a cleared mask, a playing engine has a nonzero pattern, and a set mask is a
single bit standing (with `byte`) on a bit of the pattern below its bit length. -/
def Inv (s : State) : Prop :=
  s.pending_pattern_ < 2 ^ 32 ∧ s.pending_repetions_ < 256 ∧ s.repetitions_ < 256 ∧
  s.pattern < 2 ^ 32 ∧
  (s.repetitions_ = 0 → s.mask = 0) ∧
  (s.repetitions_ ≠ 0 → s.pattern ≠ 0) ∧
  (s.mask ≠ 0 → ∃ i, i < bitLength s.pattern ∧ s.byte = i / 8 ∧ s.mask = 2 ^ (i % 8))

/-- The engine state `k` ticks into the playback of `r` repetitions of the pattern `p`:
`k / L` repetitions are done and the cursor stands `k % L` bits below the
most-significant set bit (`L` the bit length of `p`), the mask being cleared at the
start of a repetition. -/
def Cursor (p r k : Nat) (s : State) : Prop :=
  s.pattern = p ∧ s.repetitions_ = r - k / bitLength p ∧
  (if k % bitLength p = 0 then s.mask = 0
   else s.byte = (bitLength p - 1 - k % bitLength p) / 8 ∧
        s.mask = 2 ^ ((bitLength p - 1 - k % bitLength p) % 8))

/-! ## Evaluation of the embedding on small inputs -/

theorem eval_BeepDuration_125 : (BeepDuration 125 init).pending_pattern_ = 3 := by decide

theorem eval_outputs_BeepDuration_125 :
    outputs 3 (BeepDuration 125 init) = [some true, some true, some false] := by decide

theorem eval_outputs_BeepPattern_0x500 :
    outputs 4 (BeepPattern 0x500 init) = [some true, some false, some true, some false] := by
  decide

theorem eval_midPlayback : UpdateBuzzer (BeepPattern 5 init) = some midPlayback := by decide

theorem Reachable_midPlayback : Reachable midPlayback :=
  Reachable.tick
    (Reachable.submit (Request.pattern 5) (by decide : (5 : Nat) < 2 ^ 32) Reachable.init)
    eval_midPlayback

/-! ## Arithmetic of the encoders -/

theorem mulU16_of_lt {a b : Nat} (h : a * b < 2 ^ 16) : mulU16 a b = a * b := by
  unfold mulU16
  exact Nat.mod_eq_of_lt h

theorem ticksOf_of_lt {d : Nat} (h : d * 16 < 2 ^ 16) : ticksOf d = d * 16 / 1000 := by
  unfold ticksOf
  rw [mulU16_of_lt h]

theorem ticks2Of_of_lt {d : Nat} (h : 2 * (d * 16) < 2 ^ 16) :
    ticks2Of d = 2 * (d * 16) / 1000 := by
  unfold ticks2Of
  rw [mulU16_of_lt (a := d) (b := 16) (by omega), mulU16_of_lt h]

theorem shl1L_of_le {t : Nat} (h : t ≤ 31) : shl1L t = 2 ^ t := by
  unfold shl1L
  rw [Nat.one_shiftLeft]
  apply Nat.mod_eq_of_lt
  exact Nat.pow_lt_pow_right (by decide) (by omega)

theorem dec32_shl1L {t : Nat} (h : t ≤ 31) : dec32 (shl1L t) = 2 ^ t - 1 := by
  rw [shl1L_of_le h]
  unfold dec32
  have h1 : 0 < 2 ^ t := Nat.two_pow_pos t
  have h2 : 2 ^ t < 2 ^ 32 := Nat.pow_lt_pow_right (by decide) (by omega)
  have h3 : 2 ^ 32 - 1 + 2 ^ t = (2 ^ t - 1) + 2 ^ 32 := by omega
  rw [h3, Nat.add_mod_right]
  apply Nat.mod_eq_of_lt
  omega

theorem dec32_lt (x : Nat) : dec32 x < 2 ^ 32 := by
  unfold dec32
  exact Nat.mod_lt _ (by decide)

/-- Bits of the cadence word `(2 ^ W - 1) ^ (2 ^ t - 1)`. -/
theorem testBit_cadence (t W i : Nat) :
    ((2 ^ W - 1) ^^^ (2 ^ t - 1)).testBit i = (decide (i < W) != decide (i < t)) := by
  rw [Nat.testBit_xor, Nat.testBit_two_pow_sub_one, Nat.testBit_two_pow_sub_one]

theorem cadence_eq {t W : Nat} (h : t ≤ W) :
    (2 ^ W - 1) ^^^ (2 ^ t - 1) = 2 ^ W - 2 ^ t := by
  apply Nat.eq_of_testBit_eq
  intro i
  have h1 : 0 < 2 ^ t := Nat.two_pow_pos t
  have h2 : 2 ^ t - 1 < 2 ^ W := by
    have : 2 ^ t ≤ 2 ^ W := Nat.pow_le_pow_right (by decide) h
    omega
  have h3 : 2 ^ W - 2 ^ t = 2 ^ W - ((2 ^ t - 1) + 1) := by omega
  rw [testBit_cadence, h3, Nat.testBit_two_pow_sub_succ h2, Nat.testBit_two_pow_sub_one]
  by_cases hW : i < W <;> by_cases ht : i < t <;> simp [hW, ht]
  omega

/-! ## Bits, bytes and the two search loops -/

theorem and_two_pow_ne_zero (x j : Nat) : x &&& 2 ^ j ≠ 0 ↔ x.testBit j = true := by
  constructor
  · intro h
    by_contra hx
    apply h
    apply Nat.eq_of_testBit_eq
    intro i
    rw [Nat.testBit_and, Nat.testBit_two_pow, Nat.zero_testBit]
    by_cases hji : j = i
    · subst hji
      simp [hx]
    · simp [hji]
  · intro h h0
    have h1 : (x &&& 2 ^ j).testBit j = true := by
      rw [Nat.testBit_and, Nat.testBit_two_pow_self, h]
      rfl
    rw [h0, Nat.zero_testBit] at h1
    exact Bool.noConfusion h1

theorem bytes_eq (p b : Nat) : bytes p b = (p >>> (8 * b)) % 2 ^ 8 := by
  unfold bytes
  rw [Nat.shiftRight_eq_div_pow, Nat.pow_mul]
  norm_num

theorem testBit_bytes (p b j : Nat) (hj : j < 8) :
    (bytes p b).testBit j = p.testBit (8 * b + j) := by
  rw [bytes_eq, Nat.testBit_mod_two_pow, Nat.testBit_shiftRight]
  simp [hj]

/-- The test `pattern.bytes[byte] & mask` at the cursor of bit `i` reads bit `i`. -/
theorem cursor_test (p i : Nat) :
    bytes p (i / 8) &&& 2 ^ (i % 8) ≠ 0 ↔ p.testBit i = true := by
  rw [and_two_pow_ne_zero, testBit_bytes p (i / 8) (i % 8) (Nat.mod_lt _ (by decide))]
  rw [Nat.div_add_mod]

theorem bytes_lt (p b : Nat) : bytes p b < 256 := by
  unfold bytes
  exact Nat.mod_lt _ (by decide)

theorem bytes_eq_zero_of_lt {p b : Nat} (h : p < 256 ^ b) : bytes p b = 0 := by
  unfold bytes
  rw [Nat.div_eq_of_lt h]

theorem findByte_eq (p : Nat) :
    ∀ (n b : Nat), b ≤ n → bytes p b ≠ 0 → (∀ c, b < c → c ≤ n → bytes p c = 0) →
      findByte p n = some b := by
  intro n
  induction n with
  | zero =>
    intro b hb hnz _
    have hb0 : b = 0 := by omega
    subst hb0
    simp [findByte, hnz]
  | succ n ih =>
    intro b hb hnz hz
    by_cases hbn : b = n + 1
    · subst hbn
      simp [findByte, hnz]
    · have h0 : bytes p (n + 1) = 0 := hz (n + 1) (by omega) (Nat.le_refl _)
      simp only [findByte, h0, ne_eq, not_true_eq_false, if_false]
      exact ih b (by omega) hnz (fun c hc hcn => hz c hc (by omega))

theorem findMask_eq (x : Nat) :
    ∀ (k j : Nat), j ≤ k → x.testBit j = true → (∀ c, j < c → c ≤ k → x.testBit c = false) →
      findMask x (k + 1) (2 ^ k) = some (2 ^ j) := by
  intro k
  induction k with
  | zero =>
    intro j hj hbit _
    have hj0 : j = 0 := by omega
    subst hj0
    have h1 : x &&& 2 ^ 0 ≠ 0 := (and_two_pow_ne_zero x 0).2 hbit
    simp only [findMask]
    rw [if_pos h1]
  | succ k ih =>
    intro j hj hbit hz
    by_cases hjk : j = k + 1
    · subst hjk
      have h1 : x &&& 2 ^ (k + 1) ≠ 0 := (and_two_pow_ne_zero x (k + 1)).2 hbit
      simp only [findMask]
      rw [if_pos h1]
    · have h0 : ¬ (x &&& 2 ^ (k + 1) ≠ 0) := by
        rw [and_two_pow_ne_zero, hz (k + 1) (by omega) (Nat.le_refl _)]
        exact Bool.noConfusion
      have h2 : 2 ^ (k + 1) / 2 = 2 ^ k := by
        rw [Nat.pow_succ]
        exact Nat.mul_div_cancel _ (by decide)
      rw [findMask, if_neg h0, h2]
      exact ih j (by omega) hbit (fun c hc hck => hz c hc (by omega))

/-- The most-significant set bit of a nonzero word is bit `log2`. -/
theorem testBit_log2 {p : Nat} (hp : p ≠ 0) : p.testBit (Nat.log2 p) = true := by
  have h1 : 2 ^ Nat.log2 p ≤ p := Nat.log2_self_le hp
  have h2 : p < 2 ^ (Nat.log2 p + 1) := Nat.lt_log2_self
  rw [Nat.testBit_to_div_mod]
  have h3 : p / 2 ^ Nat.log2 p = 1 := by
    apply Nat.div_eq_of_lt_le
    · simpa using h1
    · rw [Nat.pow_succ] at h2
      omega
  simp [h3]

theorem testBit_above_log2 {p c : Nat} (hc : Nat.log2 p < c) : p.testBit c = false := by
  apply Nat.testBit_lt_two_pow
  have h2 : p < 2 ^ (Nat.log2 p + 1) := Nat.lt_log2_self
  exact Nat.lt_of_lt_of_le h2 (Nat.pow_le_pow_right (by decide) hc)

theorem log2_lt_32 {p : Nat} (hp : p ≠ 0) (h32 : p < 2 ^ 32) : Nat.log2 p < 32 :=
  (Nat.log2_lt hp).2 h32

theorem findByte_log2 {p : Nat} (hp : p ≠ 0) (h32 : p < 2 ^ 32) :
    findByte p 3 = some (Nat.log2 p / 8) := by
  have he : Nat.log2 p < 32 := log2_lt_32 hp h32
  apply findByte_eq p 3 (Nat.log2 p / 8) (by omega)
  · intro h0
    have h1 : (bytes p (Nat.log2 p / 8)).testBit (Nat.log2 p % 8) = true := by
      rw [testBit_bytes p _ _ (Nat.mod_lt _ (by decide)), Nat.div_add_mod]
      exact testBit_log2 hp
    rw [h0, Nat.zero_testBit] at h1
    exact Bool.noConfusion h1
  · intro c hc _
    apply bytes_eq_zero_of_lt
    have h2 : p < 2 ^ (Nat.log2 p + 1) := Nat.lt_log2_self
    have h3 : (256 : Nat) ^ c = 2 ^ (8 * c) := by
      rw [Nat.pow_mul]
    rw [h3]
    exact Nat.lt_of_lt_of_le h2 (Nat.pow_le_pow_right (by decide) (by omega))

theorem findMask_log2 {p : Nat} (hp : p ≠ 0) :
    findMask (bytes p (Nat.log2 p / 8)) 8 0x80 = some (2 ^ (Nat.log2 p % 8)) := by
  have hj : Nat.log2 p % 8 < 8 := Nat.mod_lt _ (by decide)
  apply findMask_eq (bytes p (Nat.log2 p / 8)) 7 (Nat.log2 p % 8) (by omega)
  · rw [testBit_bytes p _ _ hj, Nat.div_add_mod]
    exact testBit_log2 hp
  · intro c hc hc7
    rw [testBit_bytes p _ _ (by omega)]
    apply testBit_above_log2
    omega

/-- What lines 110-125 do to a cursor standing on bit `i`: it moves to bit `i - 1`, or,
from bit `0`, clears the mask and counts one repetition down. -/
theorem advance_at (s : State) (i : Nat) (hb : s.byte = i / 8) (hm : s.mask = 2 ^ (i % 8)) :
    advance s =
      if i = 0 then { s with mask := 0, repetitions_ := dec8 s.repetitions_ }
      else { s with byte := (i - 1) / 8, mask := 2 ^ ((i - 1) % 8) } := by
  obtain ⟨pp, pr, r, pat, mask, byte, out⟩ := s
  simp only at hb hm
  subst hb hm
  have hj : i % 8 = 0 ∨ i % 8 = 1 ∨ i % 8 = 2 ∨ i % 8 = 3 ∨ i % 8 = 4 ∨ i % 8 = 5 ∨
      i % 8 = 6 ∨ i % 8 = 7 := by omega
  by_cases hi : i = 0
  · subst hi
    simp [advance]
  · rw [if_neg hi]
    rcases hj with h | h | h | h | h | h | h | h
    · have h1 : (i - 1) % 8 = 7 := by omega
      have h2 : i / 8 ≠ 0 := by omega
      have h3 : i / 8 - 1 = (i - 1) / 8 := by omega
      simp [advance, h, h1, h2, h3]
    all_goals
      have h1 : (i - 1) % 8 = i % 8 - 1 := by omega
      have h3 : i / 8 = (i - 1) / 8 := by omega
      rw [h1, h]
      simp [advance, h, h3]

theorem bitLengthAux_eq :
    ∀ (fuel p : Nat), p ≤ fuel → p ≠ 0 → bitLengthAux fuel p = Nat.log2 p + 1 := by
  intro fuel
  induction fuel with
  | zero =>
    intro p hle hp
    omega
  | succ f ih =>
    intro p hle hp
    rw [bitLengthAux, if_neg hp]
    by_cases h2 : 2 ≤ p
    · rw [ih (p / 2) (by omega) (by omega)]
      conv_rhs => rw [Nat.log2]
      rw [if_pos h2]
    · have h1 : p = 1 := by omega
      subst h1
      have h0 : Nat.log2 1 = 0 := by
        rw [Nat.log2]
        rfl
      rw [h0]
      cases f with
      | zero => rfl
      | succ f => rfl

theorem bitLength_of_ne_zero {p : Nat} (hp : p ≠ 0) : bitLength p = Nat.log2 p + 1 :=
  bitLengthAux_eq p p (Nat.le_refl p) hp

/-- One tick of a playing engine whose cursor stands on bit `i` of the pattern, where a
cleared mask stands for the most-significant set bit: the pin takes the value of bit
`i` and the cursor is advanced from there. -/
theorem play_at (s : State) (i : Nat) (hr : s.repetitions_ ≠ 0) (hp : s.pattern ≠ 0)
    (h32 : s.pattern < 2 ^ 32) (hi : i < bitLength s.pattern)
    (hc : (s.mask = 0 ∧ i + 1 = bitLength s.pattern) ∨
      (s.byte = i / 8 ∧ s.mask = 2 ^ (i % 8))) :
    play s = some (advance
      { s with byte := i / 8, mask := 2 ^ (i % 8), out := s.pattern.testBit i }) := by
  rw [bitLength_of_ne_zero hp] at hi hc
  have he : Nat.log2 s.pattern < 32 := log2_lt_32 hp h32
  rcases hc with ⟨hm, hL⟩ | ⟨hb, hm⟩
  · have hi2 : i = Nat.log2 s.pattern := by omega
    subst hi2
    unfold play
    rw [if_pos hr, if_pos hm, findByte_log2 hp h32]
    simp only
    rw [findMask_log2 hp]
    simp only [BuzzerOn, testBit_log2 hp]
  · have hm0 : s.mask ≠ 0 := by
      rw [hm]
      exact Nat.ne_of_gt (Nat.two_pow_pos _)
    have hb3 : ¬ 3 < s.byte := by omega
    unfold play
    rw [if_pos hr, if_neg hm0, if_neg hb3]
    obtain ⟨pp, pr, r, pat, mask, byte, out⟩ := s
    simp only at hb hm hp h32 hi he hr hm0 hb3 ⊢
    subst hb hm
    by_cases hbit : pat.testBit i = true
    · rw [if_pos ((cursor_test pat i).2 hbit), hbit]
      rfl
    · rw [if_neg (fun h => hbit ((cursor_test pat i).1 h))]
      have hf : pat.testBit i = false := by simpa using hbit
      rw [hf]
      rfl

theorem dec8_of_pos {r : Nat} (h0 : r ≠ 0) (h : r < 256) : dec8 r = r - 1 := by
  unfold dec8
  omega

/-- The two lemmas `play_at` and `advance_at` together: the state after one tick of a
playing engine whose cursor stands on bit `i`. -/
theorem play_cursor (s : State) (i : Nat) (hr : s.repetitions_ ≠ 0) (hp : s.pattern ≠ 0)
    (h32 : s.pattern < 2 ^ 32) (hi : i < bitLength s.pattern)
    (hc : (s.mask = 0 ∧ i + 1 = bitLength s.pattern) ∨
      (s.byte = i / 8 ∧ s.mask = 2 ^ (i % 8))) :
    play s = some
      (if i = 0 then
        { s with byte := 0, mask := 0, repetitions_ := dec8 s.repetitions_,
                 out := s.pattern.testBit 0 }
      else
        { s with byte := (i - 1) / 8, mask := 2 ^ ((i - 1) % 8),
                 out := s.pattern.testBit i }) := by
  rw [play_at s i hr hp h32 hi hc]
  rw [advance_at { s with byte := i / 8, mask := 2 ^ (i % 8), out := s.pattern.testBit i } i
    rfl rfl]
  by_cases h0 : i = 0
  · rw [if_pos h0, if_pos h0, h0]
  · rw [if_neg h0, if_neg h0]

/-! ## Invariant of the reachable states -/

theorem Inv_init : Inv init := by
  unfold Inv init
  simp

theorem Inv_submit (q : Request) (hq : q.WellTyped) {s : State} (h : Inv s) :
    Inv (submit q s) := by
  unfold Inv at h ⊢
  obtain ⟨_, _, h3, h4, h5, h6, h7⟩ := h
  cases q with
  | duration d =>
    simp only [submit, BeepDuration]
    exact ⟨dec32_lt _, by omega, h3, h4, h5, h6, h7⟩
  | nTimes n d =>
    simp only [submit, BeepNTimes]
    simp only [Request.WellTyped] at hq
    exact ⟨Nat.xor_lt_two_pow (dec32_lt _) (dec32_lt _), by omega, h3, h4, h5, h6, h7⟩
  | pattern v =>
    simp only [submit, BeepPattern]
    simp only [Request.WellTyped] at hq
    exact ⟨hq, by omega, h3, h4, h5, h6, h7⟩

/-- The cursor position of a playing state that satisfies the invariant. -/
theorem Inv_cursor {s : State} (h : Inv s) (hr : s.repetitions_ ≠ 0) :
    ∃ i, i < bitLength s.pattern ∧
      ((s.mask = 0 ∧ i + 1 = bitLength s.pattern) ∨
        (s.byte = i / 8 ∧ s.mask = 2 ^ (i % 8))) := by
  obtain ⟨_, _, _, _, _, h6, h7⟩ := h
  by_cases hm : s.mask = 0
  · have hp := h6 hr
    refine ⟨Nat.log2 s.pattern, ?_, Or.inl ⟨hm, ?_⟩⟩
    · rw [bitLength_of_ne_zero hp]
      omega
    · rw [bitLength_of_ne_zero hp]
  · obtain ⟨i, hi, hb, hmk⟩ := h7 hm
    exact ⟨i, hi, Or.inr ⟨hb, hmk⟩⟩

theorem play_Inv {s : State} (h : Inv s) : ∃ s1, play s = some s1 ∧ Inv s1 := by
  by_cases hr : s.repetitions_ = 0
  · refine ⟨BuzzerOff s, ?_, h⟩
    unfold play
    rw [if_neg (by simpa using hr)]
  · obtain ⟨i, hi, hc⟩ := Inv_cursor h hr
    obtain ⟨h1, h2, h3, h4, h5, h6, h7⟩ := h
    have hp := h6 hr
    rw [play_cursor s i hr hp h4 hi hc]
    refine ⟨_, rfl, ?_⟩
    by_cases h0 : i = 0
    · subst h0
      rw [if_pos rfl]
      refine ⟨h1, h2, ?_, h4, fun _ => rfl, fun _ => hp, fun hm => absurd rfl hm⟩
      rw [dec8_of_pos hr h3]
      exact Nat.lt_of_le_of_lt (Nat.sub_le _ _) h3
    · rw [if_neg h0]
      refine ⟨h1, h2, h3, h4, fun h => absurd h hr, h6, fun _ => ⟨i - 1, ?_, rfl, rfl⟩⟩
      show i - 1 < bitLength s.pattern
      omega

/-- Totality of `UpdateBuzzer` on the invariant, which it preserves. -/
theorem UpdateBuzzer_Inv {s : State} (h : Inv s) : ∃ s1, UpdateBuzzer s = some s1 ∧ Inv s1 := by
  unfold UpdateBuzzer
  by_cases hl : s.pending_repetions_ ≠ 0 ∧ s.repetitions_ = 0
  · rw [if_pos hl]
    obtain ⟨h1, h2, h3, h4, h5, h6, h7⟩ := h
    have hm : s.mask = 0 := h5 hl.2
    by_cases hz : s.pending_pattern_ = 0
    · dsimp only
      rw [if_pos hz]
      refine ⟨_, rfl, ?_⟩
      unfold Inv
      dsimp only
      exact ⟨h1, by omega, by omega, h1, fun _ => hm, fun h => absurd rfl h,
        fun h => absurd hm h⟩
    · dsimp only
      rw [if_neg hz]
      apply play_Inv
      unfold Inv
      dsimp only
      exact ⟨h1, by omega, h2, h1, fun _ => hm, fun _ => hz, fun h => absurd hm h⟩
  · rw [if_neg hl]
    exact play_Inv h

theorem Reachable_Inv {s : State} (h : Reachable s) : Inv s := by
  induction h with
  | init => exact Inv_init
  | submit q hq _ ih => exact Inv_submit q hq ih
  | tick _ hs ih =>
    obtain ⟨s2, h2, hinv⟩ := UpdateBuzzer_Inv ih
    rw [hs] at h2
    cases h2
    exact hinv

/-! ## Playback of a loaded pattern -/

theorem succ_div_mod (k L : Nat) (hL : 0 < L) :
    (k % L + 1 < L → (k + 1) / L = k / L ∧ (k + 1) % L = k % L + 1) ∧
    (¬ k % L + 1 < L → (k + 1) / L = k / L + 1 ∧ (k + 1) % L = 0) := by
  have hk : k % L + L * (k / L) = k := Nat.mod_add_div k L
  have hlt : k % L < L := Nat.mod_lt k hL
  constructor
  · intro h
    apply (Nat.div_mod_unique hL).2
    exact ⟨by omega, h⟩
  · intro h
    apply (Nat.div_mod_unique hL).2
    refine ⟨?_, hL⟩
    rw [Nat.mul_add, Nat.mul_one]
    omega

theorem play_step {p r k : Nat} {s : State} (hp : p ≠ 0) (h32 : p < 2 ^ 32) (hr : r < 256)
    (hk : k < r * bitLength p) (hc : Cursor p r k s) :
    ∃ s1, play s = some s1 ∧
      s1.out = p.testBit (bitLength p - 1 - k % bitLength p) ∧
      s1.pending_pattern_ = s.pending_pattern_ ∧
      s1.pending_repetions_ = s.pending_repetions_ ∧
      Cursor p r (k + 1) s1 := by
  obtain ⟨hpat, hrep, hcur⟩ := hc
  have hL : 0 < bitLength p := by
    rw [bitLength_of_ne_zero hp]
    omega
  have hq : k / bitLength p < r := (Nat.div_lt_iff_lt_mul hL).2 hk
  have hlt : k % bitLength p < bitLength p := Nat.mod_lt k hL
  have hle : s.repetitions_ ≤ r := by
    rw [hrep]
    exact Nat.sub_le _ _
  have hr0 : s.repetitions_ ≠ 0 := by
    rw [hrep]
    exact Nat.sub_ne_zero_of_lt hq
  have hsd := succ_div_mod k (bitLength p) hL
  have hpl := play_cursor s (bitLength p - 1 - k % bitLength p) hr0 (by rw [hpat]; exact hp)
    (by rw [hpat]; exact h32) (by rw [hpat]; omega)
    (by
      rw [hpat]
      by_cases h0 : k % bitLength p = 0
      · rw [if_pos h0] at hcur
        left
        exact ⟨hcur, by omega⟩
      · rw [if_neg h0] at hcur
        right
        exact hcur)
  rw [hpl]
  refine ⟨_, rfl, ?_⟩
  by_cases hi : bitLength p - 1 - k % bitLength p = 0
  · rw [if_pos hi]
    obtain ⟨hd, hm⟩ := hsd.2 (by omega)
    refine ⟨by rw [hi, hpat], rfl, rfl, hpat, ?_, ?_⟩
    · show dec8 s.repetitions_ = r - (k + 1) / bitLength p
      rw [dec8_of_pos hr0 (by omega), hd, hrep]
      exact (Nat.sub_add_eq r _ 1).symm
    · rw [hm, if_pos rfl]
  · rw [if_neg hi]
    obtain ⟨hd, hm⟩ := hsd.1 (by omega)
    refine ⟨by rw [hpat], rfl, rfl, hpat, ?_, ?_⟩
    · show s.repetitions_ = r - (k + 1) / bitLength p
      rw [hd]
      exact hrep
    · rw [hm, if_neg (by omega)]
      have he : bitLength p - 1 - (k % bitLength p + 1) = bitLength p - 1 - k % bitLength p - 1 := by
        omega
      rw [he]
      exact ⟨rfl, rfl⟩

/-- Playback from an idle engine with a cleared mask and the request `(p, r)` in the
pending slot: every one of the first `r * L` calls of `UpdateBuzzer` returns, and the
`(k+1)`-th puts bit `L - 1 - k % L` of `p` on the pin. -/
theorem playback {p r : Nat} {s : State} (hmask : s.mask = 0) (hidle : s.repetitions_ = 0)
    (hpp : s.pending_pattern_ = p) (hpr : s.pending_repetions_ = r)
    (hp : p ≠ 0) (h32 : p < 2 ^ 32) (hr : r < 256) :
    ∀ k, k < r * bitLength p →
      ∃ s1, ticks (k + 1) s = some s1 ∧
        s1.out = p.testBit (bitLength p - 1 - k % bitLength p) ∧
        s1.pending_pattern_ = p ∧ s1.pending_repetions_ = 0 ∧ Cursor p r (k + 1) s1 := by
  intro k
  induction k with
  | zero =>
    intro hk
    have hr0 : r ≠ 0 := by
      intro h
      rw [h] at hk
      omega
    have hload : UpdateBuzzer s = play { s with
        pattern := s.pending_pattern_, repetitions_ := s.pending_repetions_,
        pending_repetions_ := 0 } := by
      unfold UpdateBuzzer
      rw [if_pos ⟨by rw [hpr]; exact hr0, hidle⟩]
      dsimp only
      rw [if_neg (by rw [hpp]; exact hp)]
    have hc : Cursor p r 0 { s with
        pattern := s.pending_pattern_, repetitions_ := s.pending_repetions_,
        pending_repetions_ := 0 } := by
      refine ⟨hpp, ?_, ?_⟩
      · show s.pending_repetions_ = r - 0 / bitLength p
        rw [Nat.zero_div]
        exact hpr
      · rw [Nat.zero_mod, if_pos rfl]
        exact hmask
    obtain ⟨s1, h1, h2, h3, h4, h5⟩ := play_step hp h32 hr hk hc
    refine ⟨s1, ?_, h2, ?_, h4, h5⟩
    · show (some s).bind UpdateBuzzer = some s1
      rw [Option.some_bind, hload]
      exact h1
    · rw [h3]
      exact hpp
  | succ k ih =>
    intro hk
    obtain ⟨s1, h1, _, h3, h4, h5⟩ := ih (by omega)
    have hplay : UpdateBuzzer s1 = play s1 := by
      unfold UpdateBuzzer
      rw [if_neg (by rw [h4]; simp)]
    obtain ⟨s2, g1, g2, g3, g4, g5⟩ := play_step hp h32 hr hk h5
    refine ⟨s2, ?_, g2, by rw [g3]; exact h3, by rw [g4]; exact h4, g5⟩
    show (ticks (k + 1) s).bind UpdateBuzzer = some s2
    rw [h1, Option.some_bind, hplay]
    exact g1

theorem bitLength_two_pow_sub_one {t : Nat} (ht : 1 ≤ t) : bitLength (2 ^ t - 1) = t := by
  have hpow : 2 ^ t = 2 * 2 ^ (t - 1) := by
    rw [Nat.mul_comm, ← Nat.pow_succ]
    congr 1
    omega
  have hpos : 0 < 2 ^ (t - 1) := Nat.two_pow_pos _
  have hne : 2 ^ t - 1 ≠ 0 := by omega
  rw [bitLength_of_ne_zero hne]
  have h1 : Nat.log2 (2 ^ t - 1) < t := (Nat.log2_lt hne).2 (by omega)
  have h2 : t - 1 ≤ Nat.log2 (2 ^ t - 1) := (Nat.le_log2 hne).2 (by omega)
  omega

/-- A tick of an idle engine with an empty pending slot only drives the pin low. -/
theorem UpdateBuzzer_idle {s : State} (hr : s.repetitions_ = 0)
    (hp : s.pending_repetions_ = 0) : UpdateBuzzer s = some (BuzzerOff s) := by
  unfold UpdateBuzzer
  rw [if_neg (by rw [hp]; simp)]
  unfold play
  rw [if_neg (by rw [hr]; simp)]

/-- A tick of an idle engine whose pending pattern is zero leaves it idle with an empty
pending slot, whatever the pending repetition count. -/
theorem UpdateBuzzer_zero_pending {s : State} (hidle : s.repetitions_ = 0)
    (hz : s.pending_pattern_ = 0) :
    ∃ s1, UpdateBuzzer s = some s1 ∧ s1.repetitions_ = 0 ∧ s1.pending_repetions_ = 0 := by
  by_cases hp : s.pending_repetions_ = 0
  · exact ⟨BuzzerOff s, UpdateBuzzer_idle hidle hp, hidle, hp⟩
  · unfold UpdateBuzzer
    rw [if_pos ⟨hp, hidle⟩]
    dsimp only
    rw [if_pos hz]
    exact ⟨_, rfl, rfl, rfl⟩

/-- Every submit call writes the two pending variables and nothing else. -/
theorem submit_eq (q : Request) (s : State) :
    submit q s = { s with
      pending_pattern_ := (submit q s).pending_pattern_,
      pending_repetions_ := (submit q s).pending_repetions_ } := by
  cases q <;> rfl

theorem advance_pending (a b : Nat) (s : State) :
    advance { s with pending_pattern_ := a, pending_repetions_ := b } =
      { advance s with pending_pattern_ := a, pending_repetions_ := b } := by
  unfold advance
  dsimp only
  split
  · split <;> rfl
  · rfl

/-- The playing part of `UpdateBuzzer` neither reads nor writes the pending slot. -/
theorem play_pending (a b : Nat) (s : State) :
    play { s with pending_pattern_ := a, pending_repetions_ := b } =
      (play s).map (fun t => { t with pending_pattern_ := a, pending_repetions_ := b }) := by
  unfold play
  dsimp only
  split
  · split
    · cases findByte s.pattern 3 with
      | none => rfl
      | some b0 =>
        dsimp only
        cases findMask (bytes s.pattern b0) 8 0x80 with
        | none => rfl
        | some m =>
          dsimp only [Option.map_some']
          exact congrArg some (advance_pending a b (BuzzerOn { s with byte := b0, mask := m }))
    · split
      · rfl
      · split
        · dsimp only [Option.map_some']
          exact congrArg some (advance_pending a b (BuzzerOn s))
        · dsimp only [Option.map_some']
          exact congrArg some (advance_pending a b (BuzzerOff s))
  · rfl

/-- While the engine plays, a tick commutes with a submit call. -/
theorem UpdateBuzzer_submit (q : Request) {s : State} (hr : s.repetitions_ ≠ 0) :
    UpdateBuzzer (submit q s) = (UpdateBuzzer s).map (submit q) := by
  have h1 : UpdateBuzzer s = play s := by
    unfold UpdateBuzzer
    rw [if_neg (fun h => hr h.2)]
  have h2 : UpdateBuzzer (submit q s) = play (submit q s) := by
    unfold UpdateBuzzer
    rw [if_neg (fun h => hr (by rw [submit_eq q s] at h; exact h.2))]
  rw [h1, h2, submit_eq q s, play_pending]
  cases play s with
  | none => rfl
  | some t =>
    rw [Option.map_some', Option.map_some', submit_eq q t]
    cases q <;> rfl

/-- The word `BeepDuration` stores, for a duration of at most 31 ticks. -/
theorem BeepDuration_pending (d : Nat) (s : State) (h : d * 16 / 1000 ≤ 31) :
    (BeepDuration d s).pending_pattern_ = 2 ^ (d * 16 / 1000) - 1 := by
  have hd : d * 16 < 2 ^ 16 := by omega
  show dec32 (shl1L (ticksOf d)) = 2 ^ (d * 16 / 1000) - 1
  rw [ticksOf_of_lt hd, dec32_shl1L h]

/-! ## Lemmas for hand-off, idling and shifted patterns -/

theorem ticks_one (s : State) : ticks 1 s = UpdateBuzzer s := rfl

theorem ticks_succ (k : Nat) (s : State) : ticks (k + 1) s = (ticks k s).bind UpdateBuzzer := rfl

/-- Any number of ticks of an idle engine with an empty pending slot only drives the pin
low. -/
theorem ticks_idle {s : State} (hr : s.repetitions_ = 0) (hp : s.pending_repetions_ = 0) :
    ∀ n, ticks (n + 1) s = some (BuzzerOff s) := by
  intro n
  induction n with
  | zero => exact UpdateBuzzer_idle hr hp
  | succ n ih =>
    rw [ticks_succ, ih, Option.some_bind]
    exact UpdateBuzzer_idle (s := BuzzerOff s) hr hp

theorem bitLength_pos {p : Nat} (hp : p ≠ 0) : 0 < bitLength p := by
  rw [bitLength_of_ne_zero hp]
  omega

theorem lt_two_pow_bitLength (p : Nat) : p < 2 ^ bitLength p := by
  by_cases hp : p = 0
  · subst hp
    exact Nat.two_pow_pos _
  · rw [bitLength_of_ne_zero hp]
    exact Nat.lt_log2_self

theorem lt_two_pow_32_of_bitLength {p : Nat} (h : bitLength p ≤ 32) : p < 2 ^ 32 :=
  Nat.lt_of_lt_of_le (lt_two_pow_bitLength p) (Nat.pow_le_pow_right (by decide) h)

/-- The first tick after an idle engine with a cleared mask has taken a nonzero request
`(p, r)`: the slot is empty, the pattern is `p`, the pin shows the most-significant set
bit, and the count is `r`, or `r - 1` when `p` has a single bit. -/
theorem first_tick {p r : Nat} {s : State} (hmask : s.mask = 0) (hidle : s.repetitions_ = 0)
    (hpp : s.pending_pattern_ = p) (hpr : s.pending_repetions_ = r)
    (hp : p ≠ 0) (h32 : p < 2 ^ 32) (hr0 : r ≠ 0) (hr : r < 256) :
    ∃ s1, UpdateBuzzer s = some s1 ∧ s1.out = true ∧ s1.pending_pattern_ = p ∧
      s1.pending_repetions_ = 0 ∧ s1.pattern = p ∧
      s1.repetitions_ = r - 1 / bitLength p := by
  have hL := bitLength_pos hp
  obtain ⟨s1, g1, g2, g3, g4, g5, g6, _⟩ :=
    playback hmask hidle hpp hpr hp h32 hr 0 (Nat.mul_pos (by omega) hL)
  refine ⟨s1, ?_, ?_, g3, g4, g5, g6⟩
  · rw [← ticks_one]
    exact g1
  · rw [g2, Nat.zero_mod, Nat.sub_zero, bitLength_of_ne_zero hp, Nat.add_sub_cancel]
    exact testBit_log2 hp

theorem shiftLeft_ne_zero {p : Nat} (hp : p ≠ 0) (sh : Nat) : p <<< sh ≠ 0 := by
  rw [Nat.shiftLeft_eq]
  exact Nat.mul_ne_zero hp (Nat.ne_of_gt (Nat.two_pow_pos sh))

theorem log2_shiftLeft {p : Nat} (hp : p ≠ 0) (sh : Nat) :
    Nat.log2 (p <<< sh) = Nat.log2 p + sh := by
  have hne := shiftLeft_ne_zero hp sh
  have h1 : 2 ^ Nat.log2 p ≤ p := Nat.log2_self_le hp
  have h2 : p < 2 ^ (Nat.log2 p + 1) := Nat.lt_log2_self
  have hlo : Nat.log2 p + sh ≤ Nat.log2 (p <<< sh) := by
    rw [Nat.le_log2 hne, Nat.shiftLeft_eq, Nat.pow_add]
    exact Nat.mul_le_mul_right _ h1
  have hhi : Nat.log2 (p <<< sh) < Nat.log2 p + sh + 1 := by
    rw [Nat.log2_lt hne, Nat.shiftLeft_eq]
    have h3 : 2 ^ (Nat.log2 p + sh + 1) = 2 ^ (Nat.log2 p + 1) * 2 ^ sh := by
      rw [← Nat.pow_add]
      congr 1
      omega
    rw [h3]
    exact (Nat.mul_lt_mul_right (Nat.two_pow_pos sh)).2 h2
  omega

theorem bitLength_shiftLeft {p : Nat} (hp : p ≠ 0) (sh : Nat) :
    bitLength (p <<< sh) = bitLength p + sh := by
  rw [bitLength_of_ne_zero hp, bitLength_of_ne_zero (shiftLeft_ne_zero hp sh),
    log2_shiftLeft hp sh]
  omega

/-! ## Lemmas on the cadence word -/

theorem testBit_cadence_range {t W : Nat} (h : t ≤ W) (i : Nat) :
    ((2 ^ W - 1) ^^^ (2 ^ t - 1)).testBit i = decide (t ≤ i ∧ i < W) := by
  rw [testBit_cadence]
  by_cases hW : i < W <;> by_cases ht : i < t
  · simp [hW, ht]
  · have h1 : t ≤ i := by omega
    simp [hW, ht, h1]
  · omega
  · simp [hW, ht]

theorem testBit_two_pow_sub_two_pow {t W : Nat} (h : t ≤ W) (i : Nat) :
    (2 ^ W - 2 ^ t).testBit i = decide (t ≤ i ∧ i < W) := by
  rw [← cadence_eq h, testBit_cadence_range h]

theorem bitLength_cadence {t W : Nat} (h : t < W) : bitLength (2 ^ W - 2 ^ t) = W := by
  have hpow : 2 ^ W = 2 * 2 ^ (W - 1) := by
    rw [Nat.mul_comm, ← Nat.pow_succ]
    congr 1
    omega
  have ht : 2 ^ t ≤ 2 ^ (W - 1) := Nat.pow_le_pow_right (by decide) (by omega)
  have hpos : 0 < 2 ^ t := Nat.two_pow_pos t
  have hne : 2 ^ W - 2 ^ t ≠ 0 := by omega
  rw [bitLength_of_ne_zero hne]
  have h1 : Nat.log2 (2 ^ W - 2 ^ t) < W := (Nat.log2_lt hne).2 (by omega)
  have h2 : W - 1 ≤ Nat.log2 (2 ^ W - 2 ^ t) := (Nat.le_log2 hne).2 (by omega)
  omega

/-- The word `BeepNTimes` stores, for a cycle of at most 31 ticks. -/
theorem BeepNTimes_pending (n d : Nat) (s : State) (h : 32 * d / 1000 ≤ 31) :
    (BeepNTimes n d s).pending_pattern_ = 2 ^ (32 * d / 1000) - 2 ^ (16 * d / 1000) := by
  have hd : 2 * (d * 16) < 2 ^ 16 := by omega
  have h2 : 2 * (d * 16) = 32 * d := by omega
  have h1 : d * 16 = 16 * d := by omega
  show dec32 (shl1L (ticks2Of d)) ^^^ dec32 (shl1L (ticksOf d)) = _
  rw [ticks2Of_of_lt hd, ticksOf_of_lt (by omega), h2, h1, dec32_shl1L h,
    dec32_shl1L (by omega), cadence_eq (by omega)]

/-! ## Lemmas on the search for the most-significant set bit -/

theorem eval_playingLastBit : UpdateBuzzer (BeepPattern 3 init) = some playingLastBit := by
  decide

theorem eval_lastTick : UpdateBuzzer lastTick = some afterLastTick := by decide

theorem Reachable_lastTick : Reachable lastTick :=
  Reachable.submit (Request.pattern 5) (by decide : (5 : Nat) < 2 ^ 32)
    (Reachable.tick
      (Reachable.submit (Request.pattern 3) (by decide : (3 : Nat) < 2 ^ 32) Reachable.init)
      eval_playingLastBit)

/-- The two search loops of `UpdateBuzzer` on a nonzero 32-bit word: both stop, and they
stop on the most-significant set bit. -/
theorem search_msb {p : Nat} (hp : p ≠ 0) (h32 : p < 2 ^ 32) :
    findByte p 3 = some (Nat.log2 p / 8) ∧
    findMask (bytes p (Nat.log2 p / 8)) 8 0x80 = some (2 ^ (Nat.log2 p % 8)) ∧
    MsbCursor p (Nat.log2 p / 8) (2 ^ (Nat.log2 p % 8)) := by
  have he : Nat.log2 p < 32 := log2_lt_32 hp h32
  have hj : Nat.log2 p % 8 < 8 := Nat.mod_lt _ (by decide)
  have hbit : (bytes p (Nat.log2 p / 8)).testBit (Nat.log2 p % 8) = true := by
    rw [testBit_bytes p _ _ hj, Nat.div_add_mod]
    exact testBit_log2 hp
  refine ⟨findByte_log2 hp h32, findMask_log2 hp, by omega, ?_, ?_, Nat.log2 p % 8, hj, rfl,
    hbit, ?_⟩
  · intro h0
    rw [h0, Nat.zero_testBit] at hbit
    exact Bool.noConfusion hbit
  · intro c hc _
    apply bytes_eq_zero_of_lt
    have h2 : p < 2 ^ (Nat.log2 p + 1) := Nat.lt_log2_self
    have h3 : (256 : Nat) ^ c = 2 ^ (8 * c) := by
      rw [Nat.pow_mul]
    rw [h3]
    exact Nat.lt_of_lt_of_le h2 (Nat.pow_le_pow_right (by decide) (by omega))
  · intro c hc hc8
    rw [testBit_bytes p _ _ hc8]
    apply testBit_above_log2
    omega

/-- The first tick of a repetition (playing engine, cleared mask): the loops set the
cursor, the pin goes ON, and the cursor is advanced. -/
theorem play_fresh {s : State} (hr : s.repetitions_ ≠ 0) (hm : s.mask = 0)
    (hp : s.pattern ≠ 0) (h32 : s.pattern < 2 ^ 32) :
    play s = some (advance (BuzzerOn
      { s with byte := Nat.log2 s.pattern / 8, mask := 2 ^ (Nat.log2 s.pattern % 8) })) := by
  unfold play
  rw [if_pos hr, if_pos hm, findByte_log2 hp h32]
  dsimp only
  rw [findMask_log2 hp]

theorem advance_out (s : State) : (advance s).out = s.out := by
  unfold advance
  dsimp only
  split
  · split <;> rfl
  · rfl

/-- A tick of a playing engine (invariant assumed) keeps the pending slot and the active
pattern, and either keeps `repetitions_` or counts it down by one, clearing the mask. -/
theorem tick_playing {s s1 : State} (hinv : Inv s) (hr : s.repetitions_ ≠ 0)
    (ht : UpdateBuzzer s = some s1) :
    s1.pending_pattern_ = s.pending_pattern_ ∧
    s1.pending_repetions_ = s.pending_repetions_ ∧
    s1.pattern = s.pattern ∧
    (s1.repetitions_ = s.repetitions_ ∨
      (s1.repetitions_ + 1 = s.repetitions_ ∧ s1.mask = 0)) := by
  obtain ⟨i, hi, hc⟩ := Inv_cursor hinv hr
  obtain ⟨_, _, h3, h4, _, h6, _⟩ := hinv
  have hplay : UpdateBuzzer s = play s := by
    unfold UpdateBuzzer
    rw [if_neg (fun h => hr h.2)]
  rw [hplay, play_cursor s i hr (h6 hr) h4 hi hc] at ht
  have hs1 := Option.some.inj ht
  by_cases h0 : i = 0
  · rw [if_pos h0] at hs1
    subst hs1
    refine ⟨rfl, rfl, rfl, Or.inr ⟨?_, rfl⟩⟩
    show dec8 s.repetitions_ + 1 = s.repetitions_
    rw [dec8_of_pos hr h3]
    omega
  · rw [if_neg h0] at hs1
    subst hs1
    exact ⟨rfl, rfl, rfl, Or.inl rfl⟩

/-! ## Claims -/

/-- C1.  Playback correctness of `UpdateBuzzer`.  In a reachable idle state
(`repetitions_ = 0`) whose pending slot holds a nonzero pattern `p` (32 bits wide in
every reachable state) and a repetition count `r` (at most `255` in every reachable
state, at least `1` as soon as some `k` is in range), with no further submit, let `L`
be the bit length of `p`.  For every `k` with `1 ≤ k ≤ r * L` the
`k`-th call of `UpdateBuzzer` returns, the pin is ON after it exactly when bit
`L - 1 - ((k - 1) mod L)` of `p` is set, and `repetitions_` is `0` after it exactly
when `k = r * L`. -/
theorem UpdateBuzzer_playback (s : State) (hs : Reachable s) (hidle : s.repetitions_ = 0)
    (hp : s.pending_pattern_ ≠ 0) (k : Nat) (hk1 : 1 ≤ k)
    (hk : k ≤ s.pending_repetions_ * bitLength s.pending_pattern_) :
    ∃ s1, ticks k s = some s1 ∧
      (s1.out = true ↔
        s.pending_pattern_.testBit
          (bitLength s.pending_pattern_ - 1 - (k - 1) % bitLength s.pending_pattern_) = true) ∧
      (s1.repetitions_ = 0 ↔ k = s.pending_repetions_ * bitLength s.pending_pattern_) := by
  obtain ⟨h1, h2, _, _, h5, _, _⟩ := Reachable_Inv hs
  obtain ⟨j, rfl⟩ : ∃ j, k = j + 1 := ⟨k - 1, by omega⟩
  obtain ⟨s1, g1, g2, _, _, _, g5, _⟩ :=
    playback (h5 hidle) hidle rfl rfl hp h1 h2 j (by omega)
  have hL : 0 < bitLength s.pending_pattern_ := by
    rw [bitLength_of_ne_zero hp]
    omega
  refine ⟨s1, g1, ?_, ?_⟩
  · rw [g2, Nat.add_sub_cancel]
  · rw [g5]
    constructor
    · intro h0
      have h3 : s.pending_repetions_ ≤ (j + 1) / bitLength s.pending_pattern_ :=
        Nat.sub_eq_zero_iff_le.1 h0
      have h4 := (Nat.le_div_iff_mul_le hL).1 h3
      omega
    · intro he
      rw [he, Nat.mul_div_cancel _ hL]
      exact Nat.sub_self _

/-- Witness for C1: `BeepNTimes(2, 125)` after start (pattern `0b1100`, two repetitions),
at the eighth and last tick. -/
theorem UpdateBuzzer_playback_witness :
    Reachable (BeepNTimes 2 125 init) ∧ (BeepNTimes 2 125 init).repetitions_ = 0 ∧
    (BeepNTimes 2 125 init).pending_pattern_ ≠ 0 ∧ 1 ≤ 8 ∧
    8 ≤ (BeepNTimes 2 125 init).pending_repetions_ *
      bitLength (BeepNTimes 2 125 init).pending_pattern_ ∧
    ∃ s1, ticks 8 (BeepNTimes 2 125 init) = some s1 ∧
      (s1.out = true ↔
        (BeepNTimes 2 125 init).pending_pattern_.testBit
          (bitLength (BeepNTimes 2 125 init).pending_pattern_ - 1 -
            (8 - 1) % bitLength (BeepNTimes 2 125 init).pending_pattern_) = true) ∧
      (s1.repetitions_ = 0 ↔
        8 = (BeepNTimes 2 125 init).pending_repetions_ *
          bitLength (BeepNTimes 2 125 init).pending_pattern_) :=
  have hreach : Reachable (BeepNTimes 2 125 init) :=
    Reachable.submit (Request.nTimes 2 125) ⟨by decide, by decide⟩ Reachable.init
  ⟨hreach, rfl, by decide, by decide, by decide,
    UpdateBuzzer_playback (BeepNTimes 2 125 init) hreach rfl (by decide) 8
      (by decide) (by decide)⟩

/-- C2.  `BeepDuration` encoding: for every duration `d` with `d * 16 / 1000 ≤ 31`,
`BeepDuration(d)` sets the pending pattern to `2 ^ (d * 16 / 1000) - 1`, the word whose
set bits are exactly the bits `0 .. d * 16 / 1000 - 1`, and the pending repetition count
to `1`. -/
theorem BeepDuration_encoding (d : Nat) (s : State) (h : d * 16 / 1000 ≤ 31) :
    (BeepDuration d s).pending_pattern_ = 2 ^ (d * 16 / 1000) - 1 ∧
    (∀ i, (BeepDuration d s).pending_pattern_.testBit i = decide (i < d * 16 / 1000)) ∧
    (BeepDuration d s).pending_repetions_ = 1 := by
  have hpat := BeepDuration_pending d s h
  refine ⟨hpat, ?_, rfl⟩
  intro i
  rw [hpat, Nat.testBit_two_pow_sub_one]

/-- Witness for C2: 125 ms are two ticks. -/
theorem BeepDuration_encoding_witness :
    125 * 16 / 1000 ≤ 31 ∧
    (BeepDuration 125 init).pending_pattern_ = 2 ^ (125 * 16 / 1000) - 1 ∧
    (∀ i, (BeepDuration 125 init).pending_pattern_.testBit i =
      decide (i < 125 * 16 / 1000)) ∧
    (BeepDuration 125 init).pending_repetions_ = 1 :=
  ⟨by decide, BeepDuration_encoding 125 init (by decide)⟩

/-- C3 as stated fails: `BeepNTimes(1, 125)` (two ticks per phase) stores `0b1100`;
bits `0` and `1` are clear and bits `2` and `3` are set, the reverse of the claimed
layout.  Moreover `BeepNTimes(1, 100)` (one tick per phase) stores `0b110`, with bit
`2 = 2 * ticks` set. -/
theorem BeepNTimes_encoding_counterexample :
    2 * (125 * 16 / 1000) ≤ 31 ∧
    (BeepNTimes 1 125 init).pending_pattern_ = 12 ∧
    ¬ (∀ i, i < 125 * 16 / 1000 →
        (BeepNTimes 1 125 init).pending_pattern_.testBit i = true) ∧
    ¬ (∀ i, 125 * 16 / 1000 ≤ i → i < 2 * (125 * 16 / 1000) →
        (BeepNTimes 1 125 init).pending_pattern_.testBit i = false) ∧
    2 * (100 * 16 / 1000) ≤ 31 ∧
    (BeepNTimes 1 100 init).pending_pattern_ = 6 ∧
    ¬ (∀ i, 2 * (100 * 16 / 1000) ≤ i →
        (BeepNTimes 1 100 init).pending_pattern_.testBit i = false) := by
  refine ⟨by decide, by decide, ?_, ?_, by decide, by decide, ?_⟩
  · intro h
    exact absurd (h 0 (by decide)) (by decide)
  · intro h
    exact absurd (h 2 (by decide) (by decide)) (by decide)
  · intro h
    exact absurd (h 2 (by decide)) (by decide)

/-- C3, amended.  `BeepNTimes` encoding: for every `n` and every duration `d` with
`2 * (d * 16 / 1000) ≤ 31` for which the doubled product divides without a rounding
step (`2 * (d * 16) / 1000 = 2 * (d * 16 / 1000)`), writing `ticks = d * 16 / 1000`,
`BeepNTimes(n, d)` sets the pending pattern to `2 ^ (2 * ticks) - 2 ^ ticks`: bits
`[0, ticks)` are clear, bits `[ticks, 2 * ticks)` are set, no bit at or above
`2 * ticks` is set; and it sets the pending repetition count to `n`. -/
theorem BeepNTimes_encoding (n d : Nat) (s : State) (h : 2 * (d * 16 / 1000) ≤ 31)
    (heven : 2 * (d * 16) / 1000 = 2 * (d * 16 / 1000)) :
    (BeepNTimes n d s).pending_pattern_ = 2 ^ (2 * (d * 16 / 1000)) - 2 ^ (d * 16 / 1000) ∧
    (∀ i, i < d * 16 / 1000 → (BeepNTimes n d s).pending_pattern_.testBit i = false) ∧
    (∀ i, d * 16 / 1000 ≤ i → i < 2 * (d * 16 / 1000) →
      (BeepNTimes n d s).pending_pattern_.testBit i = true) ∧
    (∀ i, 2 * (d * 16 / 1000) ≤ i → (BeepNTimes n d s).pending_pattern_.testBit i = false) ∧
    (BeepNTimes n d s).pending_repetions_ = n := by
  have hd : 2 * (d * 16) < 2 ^ 16 := by omega
  have hpat : (BeepNTimes n d s).pending_pattern_ =
      (2 ^ (2 * (d * 16 / 1000)) - 1) ^^^ (2 ^ (d * 16 / 1000) - 1) := by
    show dec32 (shl1L (ticks2Of d)) ^^^ dec32 (shl1L (ticksOf d)) = _
    rw [ticks2Of_of_lt hd, ticksOf_of_lt (by omega), heven, dec32_shl1L h,
      dec32_shl1L (by omega)]
  refine ⟨?_, ?_, ?_, ?_, rfl⟩
  · rw [hpat, cadence_eq (by omega)]
  · intro i hi
    rw [hpat, testBit_cadence]
    have h1 : i < 2 * (d * 16 / 1000) := by omega
    simp [hi, h1]
  · intro i hi1 hi2
    rw [hpat, testBit_cadence]
    have h1 : ¬ i < d * 16 / 1000 := by omega
    simp [hi2, h1]
  · intro i hi
    rw [hpat, testBit_cadence]
    have h1 : ¬ i < d * 16 / 1000 := by omega
    have h2 : ¬ i < 2 * (d * 16 / 1000) := by omega
    simp [h1, h2]

/-- Witness for the amended C3: `BeepNTimes(3, 125)`. -/
theorem BeepNTimes_encoding_witness :
    2 * (125 * 16 / 1000) ≤ 31 ∧ 2 * (125 * 16) / 1000 = 2 * (125 * 16 / 1000) ∧
    (BeepNTimes 3 125 init).pending_pattern_ =
      2 ^ (2 * (125 * 16 / 1000)) - 2 ^ (125 * 16 / 1000) ∧
    (∀ i, i < 125 * 16 / 1000 → (BeepNTimes 3 125 init).pending_pattern_.testBit i = false) ∧
    (∀ i, 125 * 16 / 1000 ≤ i → i < 2 * (125 * 16 / 1000) →
      (BeepNTimes 3 125 init).pending_pattern_.testBit i = true) ∧
    (∀ i, 2 * (125 * 16 / 1000) ≤ i →
      (BeepNTimes 3 125 init).pending_pattern_.testBit i = false) ∧
    (BeepNTimes 3 125 init).pending_repetions_ = 3 :=
  ⟨by decide, by decide, BeepNTimes_encoding 3 125 init (by decide) (by decide)⟩

/-- C4 fails on the code at `BeepNTimes(1, 100)`: `100 * 16 / 1000 = 1` tick per phase,
but `2 * (100 * 16) / 1000 = 3`, the stored pattern is `0b110`, and the engine plays
ON, ON, OFF: a beep of two ticks, a silence of one, and it is idle only after the third
call, not after `1 * 2 * 1 = 2` calls. -/
theorem BeepNTimes_playback_unequal_phases :
    100 * 16 / 1000 = 1 ∧ 2 * (100 * 16 / 1000) ≤ 31 ∧
    (BeepNTimes 1 100 init).pending_pattern_ = 6 ∧
    outputs 3 (BeepNTimes 1 100 init) = [some true, some true, some false] ∧
    (ticks 2 (BeepNTimes 1 100 init)).map State.repetitions_ = some 1 ∧
    (ticks 3 (BeepNTimes 1 100 init)).map State.repetitions_ = some 0 := by
  decide

/-- C5.  End-to-end fixed-duration beep: for every duration `d` with
`1 ≤ d * 16 / 1000 ≤ 31`, after `BeepDuration(d)` in a reachable idle state each of the
first `d * 16 / 1000` calls of `UpdateBuzzer` returns with the pin ON, the engine is
idle after that many calls, and the next call returns with the pin OFF and the engine
still idle.  In particular `BeepDuration(125)` gives the pending pattern `0b11`, and
three ticks give ON, ON, OFF. -/
theorem BeepDuration_round_trip (s : State) (hs : Reachable s) (hidle : s.repetitions_ = 0)
    (d : Nat) (h1 : 1 ≤ d * 16 / 1000) (h31 : d * 16 / 1000 ≤ 31) :
    (∀ k, 1 ≤ k → k ≤ d * 16 / 1000 →
      ∃ s1, ticks k (BeepDuration d s) = some s1 ∧ s1.out = true) ∧
    (∃ s1, ticks (d * 16 / 1000) (BeepDuration d s) = some s1 ∧ s1.repetitions_ = 0) ∧
    (∃ s2, ticks (d * 16 / 1000 + 1) (BeepDuration d s) = some s2 ∧
      s2.out = false ∧ s2.repetitions_ = 0) ∧
    (BeepDuration 125 init).pending_pattern_ = 0b11 ∧
    outputs 3 (BeepDuration 125 init) = [some true, some true, some false] := by
  obtain ⟨_, _, _, _, h5, _, _⟩ := Reachable_Inv hs
  have hpat := BeepDuration_pending d s h31
  have hrep : (BeepDuration d s).pending_repetions_ = 1 := rfl
  have hpos : 2 ≤ 2 ^ (d * 16 / 1000) := by
    have := Nat.pow_le_pow_right (show 0 < 2 by decide) h1
    simpa using this
  have hlt : 2 ^ (d * 16 / 1000) < 2 ^ 32 := Nat.pow_lt_pow_right (by decide) (by omega)
  have hL := bitLength_two_pow_sub_one h1
  have hplay := playback (s := BeepDuration d s) (h5 hidle) hidle hpat hrep
    (by omega) (by omega) (by decide)
  rw [hL, Nat.one_mul] at hplay
  have hlast : ∃ s1, ticks (d * 16 / 1000) (BeepDuration d s) = some s1 ∧
      s1.repetitions_ = 0 ∧ s1.pending_repetions_ = 0 := by
    obtain ⟨s1, g1, _, _, g4, _, g5, _⟩ := hplay (d * 16 / 1000 - 1) (by omega)
    have he : d * 16 / 1000 - 1 + 1 = d * 16 / 1000 := by omega
    rw [he] at g1 g5
    refine ⟨s1, g1, ?_, g4⟩
    rw [g5, hL, Nat.div_self (by omega)]
  refine ⟨?_, ?_, ?_, by decide, by decide⟩
  · intro k hk1 hk
    obtain ⟨j, rfl⟩ : ∃ j, k = j + 1 := ⟨k - 1, by omega⟩
    obtain ⟨s1, g1, g2, _⟩ := hplay j (by omega)
    refine ⟨s1, g1, ?_⟩
    rw [g2, Nat.testBit_two_pow_sub_one]
    apply decide_eq_true
    omega
  · obtain ⟨s1, g1, g2, _⟩ := hlast
    exact ⟨s1, g1, g2⟩
  · obtain ⟨s1, g1, g2, g3⟩ := hlast
    refine ⟨BuzzerOff s1, ?_, rfl, g2⟩
    show (ticks (d * 16 / 1000) (BeepDuration d s)).bind UpdateBuzzer = some (BuzzerOff s1)
    rw [g1, Option.some_bind, UpdateBuzzer_idle g2 g3]

/-- Witness for C5: `BeepDuration(125)` after start. -/
theorem BeepDuration_round_trip_witness :
    Reachable init ∧ init.repetitions_ = 0 ∧ 1 ≤ 125 * 16 / 1000 ∧ 125 * 16 / 1000 ≤ 31 ∧
    ((∀ k, 1 ≤ k → k ≤ 125 * 16 / 1000 →
      ∃ s1, ticks k (BeepDuration 125 init) = some s1 ∧ s1.out = true) ∧
    (∃ s1, ticks (125 * 16 / 1000) (BeepDuration 125 init) = some s1 ∧
      s1.repetitions_ = 0) ∧
    (∃ s2, ticks (125 * 16 / 1000 + 1) (BeepDuration 125 init) = some s2 ∧
      s2.out = false ∧ s2.repetitions_ = 0) ∧
    (BeepDuration 125 init).pending_pattern_ = 0b11 ∧
    outputs 3 (BeepDuration 125 init) = [some true, some true, some false]) :=
  ⟨Reachable.init, rfl, by decide, by decide,
    BeepDuration_round_trip init Reachable.init rfl 125 (by decide) (by decide)⟩

/-- C6 fails on the code.  After `BeepPattern(1)` and one tick the pin is ON and the
engine idle; `BeepPattern(0)` then puts a zero pattern with repetition count `1` in the
pending slot.  The call of `UpdateBuzzer` that transfers this request returns at once
from the zero-pattern check and leaves the pin ON. -/
theorem UpdateBuzzer_zero_pattern_pin_stays_on :
    ticks 1 (BeepPattern 1 init) = some
      { pending_pattern_ := 1, pending_repetions_ := 0, repetitions_ := 0,
        pattern := 1, mask := 0, byte := 0, out := true } ∧
    Reachable (BeepPattern 0
      { pending_pattern_ := 1, pending_repetions_ := 0, repetitions_ := 0,
        pattern := 1, mask := 0, byte := 0, out := true }) ∧
    UpdateBuzzer
      { pending_pattern_ := 0, pending_repetions_ := 1, repetitions_ := 0,
        pattern := 1, mask := 0, byte := 0, out := true } = some
      { pending_pattern_ := 0, pending_repetions_ := 0, repetitions_ := 0,
        pattern := 0, mask := 0, byte := 0, out := true } ∧
    BeepPattern 0
      { pending_pattern_ := 1, pending_repetions_ := 0, repetitions_ := 0,
        pattern := 1, mask := 0, byte := 0, out := true } =
      { pending_pattern_ := 0, pending_repetions_ := 1, repetitions_ := 0,
        pattern := 1, mask := 0, byte := 0, out := true } := by
  refine ⟨by decide, ?_, by decide, by decide⟩
  exact Reachable.submit (Request.pattern 0) (by decide : (0 : Nat) < 2 ^ 32)
    (Reachable.tick
      (Reachable.submit (Request.pattern 1) (by decide : (1 : Nat) < 2 ^ 32) Reachable.init)
      (by decide))

/-- C7.  A zero pattern is a no-op for the engine state: in every idle state (reachable
or not), after a request whose pattern is `0` is put in the pending slot by
`BeepPattern(0)`, by `BeepDuration(d)` with `d * 16 / 1000 = 0`, by `BeepNTimes(n, d)`
yielding pattern `0`, whatever `n`, or by any submit call at all, one call of
`UpdateBuzzer` returns and leaves `repetitions_ = 0` and the pending repetition count
`0`. -/
theorem zero_pattern_noop (s : State) (hidle : s.repetitions_ = 0) :
    (∃ s1, UpdateBuzzer (BeepPattern 0 s) = some s1 ∧
      s1.repetitions_ = 0 ∧ s1.pending_repetions_ = 0) ∧
    (∀ d, d * 16 / 1000 = 0 →
      ∃ s1, UpdateBuzzer (BeepDuration d s) = some s1 ∧
        s1.repetitions_ = 0 ∧ s1.pending_repetions_ = 0) ∧
    (∀ n d, (BeepNTimes n d s).pending_pattern_ = 0 →
      ∃ s1, UpdateBuzzer (BeepNTimes n d s) = some s1 ∧
        s1.repetitions_ = 0 ∧ s1.pending_repetions_ = 0) ∧
    (∀ q, (submit q s).pending_pattern_ = 0 →
      ∃ s1, UpdateBuzzer (submit q s) = some s1 ∧
        s1.repetitions_ = 0 ∧ s1.pending_repetions_ = 0) := by
  refine ⟨?_, ?_, ?_, ?_⟩
  · exact UpdateBuzzer_zero_pending (s := BeepPattern 0 s) hidle rfl
  · intro d hd
    apply UpdateBuzzer_zero_pending (s := BeepDuration d s) hidle
    have h := BeepDuration_pending d s (by omega)
    rw [h, hd]
    rfl
  · intro n d hz
    exact UpdateBuzzer_zero_pending (s := BeepNTimes n d s) hidle hz
  · intro q hz
    apply UpdateBuzzer_zero_pending _ hz
    rw [submit_eq q s]
    exact hidle

/-- Witness for C7: the initial state; `BeepNTimes(7, 20)` is a submit with pattern `0`
and repetition count `7`. -/
theorem zero_pattern_noop_witness :
    init.repetitions_ = 0 ∧ (BeepNTimes 7 20 init).pending_pattern_ = 0 ∧
    ((∃ s1, UpdateBuzzer (BeepPattern 0 init) = some s1 ∧
      s1.repetitions_ = 0 ∧ s1.pending_repetions_ = 0) ∧
    (∀ d, d * 16 / 1000 = 0 →
      ∃ s1, UpdateBuzzer (BeepDuration d init) = some s1 ∧
        s1.repetitions_ = 0 ∧ s1.pending_repetions_ = 0) ∧
    (∀ n d, (BeepNTimes n d init).pending_pattern_ = 0 →
      ∃ s1, UpdateBuzzer (BeepNTimes n d init) = some s1 ∧
        s1.repetitions_ = 0 ∧ s1.pending_repetions_ = 0) ∧
    (∀ q, (submit q init).pending_pattern_ = 0 →
      ∃ s1, UpdateBuzzer (submit q init) = some s1 ∧
        s1.repetitions_ = 0 ∧ s1.pending_repetions_ = 0)) :=
  ⟨rfl, by decide, zero_pattern_noop init rfl⟩

/-- C8.  Overwrite law (last write wins): for every state and any two requests `A` and
`B` made through `BeepDuration`, `BeepNTimes` or `BeepPattern`, the state after
submitting `A` and then `B` with no tick in between equals the state after submitting
`B` alone; hence the states and pin levels of every later tick are those of `B` alone. -/
theorem submit_overwrite (s : State) (A B : Request) :
    submit B (submit A s) = submit B s ∧
    (∀ k, ticks k (submit B (submit A s)) = ticks k (submit B s)) ∧
    (∀ k, outputs k (submit B (submit A s)) = outputs k (submit B s)) := by
  have h : submit B (submit A s) = submit B s := by
    cases A <;> cases B <;> rfl
  refine ⟨h, ?_, ?_⟩
  · intro k
    rw [h]
  · intro k
    rw [h]

/-- C9.  No pre-emption.  In every reachable state with `repetitions_ > 0` a call of
`UpdateBuzzer` returns and leaves the pending pattern, the pending repetition count and
the active pattern unchanged; a submit call in any state changes only the pending
pattern and the pending repetition count (active pattern, `repetitions_`, `byte`,
`mask` and pin level are unchanged); consequently, as long as the engine has been
playing before each tick, the state after `k` ticks with a request submitted first is
the state after `k` ticks without it, with that request in the pending slot, and the
pin level is the same. -/
theorem no_preemption (s : State) (hs : Reachable s) (hr : s.repetitions_ ≠ 0) (q : Request) :
    (∃ s1, UpdateBuzzer s = some s1 ∧
      s1.pending_pattern_ = s.pending_pattern_ ∧
      s1.pending_repetions_ = s.pending_repetions_ ∧
      s1.pattern = s.pattern) ∧
    (∀ (s0 : State) (q0 : Request),
      (submit q0 s0).pattern = s0.pattern ∧
      (submit q0 s0).repetitions_ = s0.repetitions_ ∧
      (submit q0 s0).byte = s0.byte ∧
      (submit q0 s0).mask = s0.mask ∧
      (submit q0 s0).out = s0.out) ∧
    (∀ k, (∀ j, j < k → ∃ sj, ticks j s = some sj ∧ sj.repetitions_ ≠ 0) →
      ticks k (submit q s) = (ticks k s).map (submit q) ∧
      (ticks k (submit q s)).map State.out = (ticks k s).map State.out) := by
  refine ⟨?_, ?_, ?_⟩
  · have hinv := Reachable_Inv hs
    obtain ⟨i, hi, hc⟩ := Inv_cursor hinv hr
    obtain ⟨_, _, _, h4, _, h6, _⟩ := hinv
    have hplay : UpdateBuzzer s = play s := by
      unfold UpdateBuzzer
      rw [if_neg (fun h => hr h.2)]
    rw [hplay, play_cursor s i hr (h6 hr) h4 hi hc]
    refine ⟨_, rfl, ?_⟩
    by_cases h0 : i = 0
    · rw [if_pos h0]
      exact ⟨rfl, rfl, rfl⟩
    · rw [if_neg h0]
      exact ⟨rfl, rfl, rfl⟩
  · intro s0 q0
    cases q0 <;> exact ⟨rfl, rfl, rfl, rfl, rfl⟩
  · intro k
    induction k with
    | zero =>
      intro _
      refine ⟨rfl, ?_⟩
      cases q <;> rfl
    | succ k ih =>
      intro hplaying
      obtain ⟨ih1, _⟩ := ih (fun j hj => hplaying j (by omega))
      obtain ⟨sk, hk1, hk2⟩ := hplaying k (by omega)
      have hstep : ticks (k + 1) (submit q s) = (ticks (k + 1) s).map (submit q) := by
        show (ticks k (submit q s)).bind UpdateBuzzer =
          ((ticks k s).bind UpdateBuzzer).map (submit q)
        rw [ih1, hk1, Option.map_some', Option.some_bind, Option.some_bind]
        exact UpdateBuzzer_submit q hk2
      refine ⟨hstep, ?_⟩
      rw [hstep]
      cases ticks (k + 1) s with
      | none => rfl
      | some t =>
        rw [Option.map_some', Option.map_some', Option.map_some']
        cases q <;> rfl

/-- Witness for C9: the state one tick into the playback of the pattern `0b101`, and
the request `BeepDuration(125)`. -/
theorem no_preemption_witness :
    Reachable midPlayback ∧ midPlayback.repetitions_ ≠ 0 ∧
    ((∃ s1, UpdateBuzzer midPlayback = some s1 ∧
      s1.pending_pattern_ = midPlayback.pending_pattern_ ∧
      s1.pending_repetions_ = midPlayback.pending_repetions_ ∧
      s1.pattern = midPlayback.pattern) ∧
    (∀ (s0 : State) (q0 : Request),
      (submit q0 s0).pattern = s0.pattern ∧
      (submit q0 s0).repetitions_ = s0.repetitions_ ∧
      (submit q0 s0).byte = s0.byte ∧
      (submit q0 s0).mask = s0.mask ∧
      (submit q0 s0).out = s0.out) ∧
    (∀ k, (∀ j, j < k → ∃ sj, ticks j midPlayback = some sj ∧ sj.repetitions_ ≠ 0) →
      ticks k (submit (Request.duration 125) midPlayback) =
        (ticks k midPlayback).map (submit (Request.duration 125)) ∧
      (ticks k (submit (Request.duration 125) midPlayback)).map State.out =
        (ticks k midPlayback).map State.out)) :=
  ⟨Reachable_midPlayback, by decide,
    no_preemption midPlayback Reachable_midPlayback (by decide) (Request.duration 125)⟩

/-- C10.  Idempotence of Idle: in every state (reachable or not) with
`repetitions_ = 0` and pending repetition count `0`, a call of `UpdateBuzzer` returns,
sets the pin OFF and leaves every variable (pending pattern, pending repetition count,
active pattern, `repetitions_`, `byte`, `mask`) unchanged; and so does any number
`n + 1` of such calls: every one of them yields OFF and the same state. -/
theorem idle_idempotent (s : State) (hidle : s.repetitions_ = 0)
    (hpend : s.pending_repetions_ = 0) :
    UpdateBuzzer s = some { s with out := false } ∧
    (∀ n, ticks (n + 1) s = some { s with out := false }) ∧
    (∀ n, outputs n s = List.replicate n (some false)) := by
  have h1 : UpdateBuzzer s = some { s with out := false } := UpdateBuzzer_idle hidle hpend
  have h2 : ∀ n, ticks (n + 1) s = some { s with out := false } := by
    intro n
    induction n with
    | zero => exact h1
    | succ n ih =>
      show (ticks (n + 1) s).bind UpdateBuzzer = some { s with out := false }
      rw [ih, Option.some_bind]
      exact UpdateBuzzer_idle (s := { s with out := false }) hidle hpend
  refine ⟨h1, h2, ?_⟩
  intro n
  unfold outputs
  apply List.ext_getElem
  · simp
  · intro i hi1 hi2
    simp only [List.getElem_map, List.getElem_range', List.getElem_replicate]
    rw [show 1 + 1 * i = i + 1 by omega, h2 i]
    rfl

/-- Witness for C10: the initial state. -/
theorem idle_idempotent_witness :
    init.repetitions_ = 0 ∧ init.pending_repetions_ = 0 ∧
    (UpdateBuzzer init = some { init with out := false } ∧
    (∀ n, ticks (n + 1) init = some { init with out := false }) ∧
    (∀ n, outputs n init = List.replicate n (some false))) :=
  ⟨rfl, rfl, idle_idempotent init rfl rfl⟩

/-- C11.  Hand-off on consumption: in every reachable state with `repetitions_ = 0`
and pending repetition count `c ≠ 0`, one call of `UpdateBuzzer` returns and leaves the
pending repetition count `0` and the active pattern equal to the previously pending
pattern; if that pattern is nonzero, `repetitions_` after the call is `c - 1` when the
pattern has bit length `1` and `c` otherwise (and it is `0` if the pattern is zero). -/
theorem handoff_on_consumption (s : State) (hs : Reachable s) (hidle : s.repetitions_ = 0)
    (hc : s.pending_repetions_ ≠ 0) :
    ∃ s1, UpdateBuzzer s = some s1 ∧
      s1.pending_repetions_ = 0 ∧
      s1.pattern = s.pending_pattern_ ∧
      (s.pending_pattern_ ≠ 0 →
        (bitLength s.pending_pattern_ = 1 → s1.repetitions_ = s.pending_repetions_ - 1) ∧
        (bitLength s.pending_pattern_ ≠ 1 → s1.repetitions_ = s.pending_repetions_)) ∧
      (s.pending_pattern_ = 0 → s1.repetitions_ = 0) := by
  obtain ⟨h1, h2, _, _, h5, _, _⟩ := Reachable_Inv hs
  by_cases hz : s.pending_pattern_ = 0
  · unfold UpdateBuzzer
    rw [if_pos ⟨hc, hidle⟩]
    dsimp only
    rw [if_pos hz]
    exact ⟨_, rfl, rfl, rfl, fun h => absurd hz h, fun _ => rfl⟩
  · obtain ⟨s1, g1, _, _, g4, g5, g6⟩ := first_tick (h5 hidle) hidle rfl rfl hz h1 hc h2
    refine ⟨s1, g1, g4, g5, fun _ => ⟨?_, ?_⟩, fun h => absurd h hz⟩
    · intro hL
      rw [g6, hL]
    · intro hL
      have hpos := bitLength_pos hz
      rw [g6, Nat.div_eq_of_lt (by omega)]
      rfl

/-- Witness for C11: `BeepNTimes(3, 125)` after start (pattern `0b1100`, count `3`). -/
theorem handoff_on_consumption_witness :
    Reachable (BeepNTimes 3 125 init) ∧ (BeepNTimes 3 125 init).repetitions_ = 0 ∧
    (BeepNTimes 3 125 init).pending_repetions_ ≠ 0 ∧
    ∃ s1, UpdateBuzzer (BeepNTimes 3 125 init) = some s1 ∧
      s1.pending_repetions_ = 0 ∧
      s1.pattern = (BeepNTimes 3 125 init).pending_pattern_ ∧
      ((BeepNTimes 3 125 init).pending_pattern_ ≠ 0 →
        (bitLength (BeepNTimes 3 125 init).pending_pattern_ = 1 →
          s1.repetitions_ = (BeepNTimes 3 125 init).pending_repetions_ - 1) ∧
        (bitLength (BeepNTimes 3 125 init).pending_pattern_ ≠ 1 →
          s1.repetitions_ = (BeepNTimes 3 125 init).pending_repetions_)) ∧
      ((BeepNTimes 3 125 init).pending_pattern_ = 0 → s1.repetitions_ = 0) :=
  have hreach : Reachable (BeepNTimes 3 125 init) :=
    Reachable.submit (Request.nTimes 3 125) ⟨by decide, by decide⟩ Reachable.init
  ⟨hreach, rfl, by decide,
    handoff_on_consumption (BeepNTimes 3 125 init) hreach rfl (by decide)⟩

/-- C12.  Leading zeros contribute no delay: for every nonzero pattern `p` of bit length
`L` and every shift `sh` with `L + sh ≤ 32`, after `BeepPattern(p)` in one reachable idle
state and `BeepPattern(p << sh)` in another, the `k`-th call of `UpdateBuzzer` returns in
both and gives the same pin level, for every `k` in `1 .. L`, and the first level is ON.
In particular `0x00000005` and `0x00000500` both give ON, OFF, ON on the first three
ticks after submission. -/
theorem leading_zeros_no_delay (s1 s2 : State) (h1 : Reachable s1) (h2 : Reachable s2)
    (hi1 : s1.repetitions_ = 0) (hi2 : s2.repetitions_ = 0)
    (p sh : Nat) (hp : p ≠ 0) (hL : bitLength p + sh ≤ 32)
    (k : Nat) (hk1 : 1 ≤ k) (hk : k ≤ bitLength p) :
    (∃ a b, ticks k (BeepPattern p s1) = some a ∧
      ticks k (BeepPattern (p <<< sh) s2) = some b ∧
      a.out = b.out ∧ (k = 1 → a.out = true ∧ b.out = true)) ∧
    outputs 3 (BeepPattern 0x00000005 init) = [some true, some false, some true] ∧
    outputs 3 (BeepPattern 0x00000500 init) = [some true, some false, some true] := by
  refine ⟨?_, by decide, by decide⟩
  obtain ⟨_, _, _, _, m1, _, _⟩ := Reachable_Inv h1
  obtain ⟨_, _, _, _, m2, _, _⟩ := Reachable_Inv h2
  obtain ⟨j, rfl⟩ : ∃ j, k = j + 1 := ⟨k - 1, by omega⟩
  have hq := shiftLeft_ne_zero hp sh
  have hLq := bitLength_shiftLeft hp sh
  have hp32 : p < 2 ^ 32 := lt_two_pow_32_of_bitLength (by omega)
  have hq32 : p <<< sh < 2 ^ 32 := lt_two_pow_32_of_bitLength (by omega)
  obtain ⟨a, a1, a2, _⟩ := playback (p := p) (r := 1) (s := BeepPattern p s1) (m1 hi1) hi1
    rfl rfl hp hp32 (by decide) j (by omega)
  obtain ⟨b, b1, b2, _⟩ := playback (p := p <<< sh) (r := 1) (s := BeepPattern (p <<< sh) s2)
    (m2 hi2) hi2 rfl rfl hq hq32 (by decide) j (by omega)
  rw [Nat.mod_eq_of_lt (by omega)] at a2
  rw [hLq, Nat.mod_eq_of_lt (by omega), Nat.testBit_shiftLeft] at b2
  have hge : bitLength p + sh - 1 - j ≥ sh := by omega
  have hsub : bitLength p + sh - 1 - j - sh = bitLength p - 1 - j := by omega
  rw [decide_eq_true hge, Bool.true_and, hsub] at b2
  refine ⟨a, b, a1, b1, by rw [a2, b2], ?_⟩
  intro hj
  have hj0 : j = 0 := by omega
  subst hj0
  have hmsb : p.testBit (bitLength p - 1 - 0) = true := by
    rw [Nat.sub_zero, bitLength_of_ne_zero hp, Nat.add_sub_cancel]
    exact testBit_log2 hp
  exact ⟨by rw [a2, hmsb], by rw [b2, hmsb]⟩

/-- Witness for C12: the patterns `0b101` and `0b101 << 8 = 0x500`, at the second tick. -/
theorem leading_zeros_no_delay_witness :
    Reachable init ∧ init.repetitions_ = 0 ∧ (5 : Nat) ≠ 0 ∧ bitLength 5 + 8 ≤ 32 ∧
    1 ≤ 2 ∧ 2 ≤ bitLength 5 ∧
    ((∃ a b, ticks 2 (BeepPattern 5 init) = some a ∧
      ticks 2 (BeepPattern (5 <<< 8) init) = some b ∧
      a.out = b.out ∧ (2 = 1 → a.out = true ∧ b.out = true)) ∧
    outputs 3 (BeepPattern 0x00000005 init) = [some true, some false, some true] ∧
    outputs 3 (BeepPattern 0x00000500 init) = [some true, some false, some true]) :=
  ⟨Reachable.init, rfl, by decide, by decide, by decide, by decide,
    leading_zeros_no_delay init init Reachable.init Reachable.init rfl rfl 5 8
      (by decide) (by decide) 2 (by decide) (by decide)⟩

/-- C13.  Completion-wait timing: in every reachable idle state, once a request with a
nonzero pattern `p` of bit length `L` and a repetition count `r ≥ 1` has been submitted
(no further submit in between), every one of the next `r * L` calls of `UpdateBuzzer`
returns, the loop condition of `WaitForBuzzerToComplete`
(`pending_repetions_ || repetitions_`) is true after `k` calls for every `k < r * L`, and
it is false after exactly `r * L` calls. -/
theorem completion_wait_timing (s : State) (hs : Reachable s) (hidle : s.repetitions_ = 0)
    (q : Request) (hq : q.WellTyped)
    (hp : (submit q s).pending_pattern_ ≠ 0) (hr : 1 ≤ (submit q s).pending_repetions_) :
    (∀ k, k < (submit q s).pending_repetions_ * bitLength (submit q s).pending_pattern_ →
      ∃ sk, ticks k (submit q s) = some sk ∧ waiting sk = true) ∧
    (∃ sf, ticks ((submit q s).pending_repetions_ * bitLength (submit q s).pending_pattern_)
        (submit q s) = some sf ∧ waiting sf = false) := by
  have hreach : Reachable (submit q s) := Reachable.submit q hq hs
  have hidle2 : (submit q s).repetitions_ = 0 := by
    rw [submit_eq q s]
    exact hidle
  obtain ⟨h1, h2, _, _, h5, _, _⟩ := Reachable_Inv hreach
  have hL := bitLength_pos hp
  have hplay := playback (h5 hidle2) hidle2 rfl rfl hp h1 h2
  constructor
  · intro k hk
    cases k with
    | zero =>
      refine ⟨submit q s, rfl, ?_⟩
      unfold waiting
      rw [decide_eq_true (show (submit q s).pending_repetions_ ≠ 0 by omega)]
      rfl
    | succ j =>
      obtain ⟨sk, g1, _, _, _, _, g6, _⟩ := hplay j (by omega)
      refine ⟨sk, g1, ?_⟩
      have hdiv : (j + 1) / bitLength (submit q s).pending_pattern_ <
          (submit q s).pending_repetions_ := (Nat.div_lt_iff_lt_mul hL).2 hk
      have hne : sk.repetitions_ ≠ 0 := by
        rw [g6]
        exact Nat.sub_ne_zero_of_lt hdiv
      unfold waiting
      rw [decide_eq_true hne]
      exact Bool.or_true _
  · have hpos : 0 < (submit q s).pending_repetions_ * bitLength (submit q s).pending_pattern_ :=
      Nat.mul_pos hr hL
    obtain ⟨sf, g1, _, _, g4, _, g6, _⟩ :=
      hplay ((submit q s).pending_repetions_ * bitLength (submit q s).pending_pattern_ - 1)
        (by omega)
    rw [Nat.sub_add_cancel hpos] at g1 g6
    refine ⟨sf, g1, ?_⟩
    rw [Nat.mul_div_cancel _ hL, Nat.sub_self] at g6
    unfold waiting
    rw [g4, g6]
    rfl

/-- Witness for C13: `BeepNTimes(2, 125)` after start. -/
theorem completion_wait_timing_witness :
    Reachable init ∧ init.repetitions_ = 0 ∧ (Request.nTimes 2 125).WellTyped ∧
    (submit (Request.nTimes 2 125) init).pending_pattern_ ≠ 0 ∧
    1 ≤ (submit (Request.nTimes 2 125) init).pending_repetions_ ∧
    ((∀ k, k < (submit (Request.nTimes 2 125) init).pending_repetions_ *
        bitLength (submit (Request.nTimes 2 125) init).pending_pattern_ →
      ∃ sk, ticks k (submit (Request.nTimes 2 125) init) = some sk ∧ waiting sk = true) ∧
    (∃ sf, ticks ((submit (Request.nTimes 2 125) init).pending_repetions_ *
        bitLength (submit (Request.nTimes 2 125) init).pending_pattern_)
        (submit (Request.nTimes 2 125) init) = some sf ∧ waiting sf = false)) :=
  ⟨Reachable.init, rfl, ⟨by decide, by decide⟩, by decide, by decide,
    completion_wait_timing init Reachable.init rfl (Request.nTimes 2 125)
      ⟨by decide, by decide⟩ (by decide) (by decide)⟩

/-- C14 fails on the code at the documented maxima.  `BeepDuration(2000)` ("up to 2
seconds") computes the shift amount `(2000 * 16) / 1000 = 32`, and `BeepNTimes(n, 1000)`
("maximum allowable duration is 1 second") computes `2 * (1000 * 16) / 1000 = 32`: a shift
of a 32-bit `long` by its full width.  The products stay below `2 ^ 16`, and every
duration strictly below the maximum gives shift amounts below `32`. -/
theorem documented_maxima_shift_by_32 :
    ticksOf 2000 = 32 ∧ ticks2Of 1000 = 32 ∧
    ¬ ticksOf 2000 < 32 ∧ ¬ ticks2Of 1000 < 32 ∧
    2000 * 16 < 2 ^ 16 ∧ 2 * (1000 * 16) < 2 ^ 16 ∧
    (∀ d, d < 2000 → ticksOf d < 32 ∧ d * 16 < 2 ^ 16) ∧
    (∀ d, d < 1000 → ticksOf d < 32 ∧ ticks2Of d < 32 ∧ 2 * (d * 16) < 2 ^ 16) := by
  refine ⟨by decide, by decide, by decide, by decide, by decide, by decide, ?_, ?_⟩
  · intro d hd
    rw [ticksOf_of_lt (by omega)]
    omega
  · intro d hd
    rw [ticksOf_of_lt (by omega), ticks2Of_of_lt (by omega)]
    omega

/-- C15.  `BeepPattern` pass-through: for every value `v` (in particular every 32-bit
value), `BeepPattern(v)` sets the pending pattern to exactly `v`, bit for bit, and the
pending repetition count to `1`. -/
theorem BeepPattern_pass_through (v : Nat) (s : State) :
    (BeepPattern v s).pending_pattern_ = v ∧
    (∀ i, (BeepPattern v s).pending_pattern_.testBit i = v.testBit i) ∧
    (BeepPattern v s).pending_repetions_ = 1 :=
  ⟨rfl, fun _ => rfl, rfl⟩

/-- C16.  Repeat count `0` is a no-op: for every duration `d` and every idle state
(reachable or not, whatever the pending slot held), after `BeepNTimes(0, d)` every
subsequent call of `UpdateBuzzer` returns with the pin OFF and `repetitions_ = 0`; and
this holds whatever word the encoder leaves in the pending pattern. -/
theorem repeat_count_zero_noop (d : Nat) (s : State) (hidle : s.repetitions_ = 0) :
    (∀ n, ∃ s1, ticks (n + 1) (BeepNTimes 0 d s) = some s1 ∧
      s1.out = false ∧ s1.repetitions_ = 0) ∧
    (∀ v n, ∃ s1, ticks (n + 1) { BeepNTimes 0 d s with pending_pattern_ := v } = some s1 ∧
      s1.out = false ∧ s1.repetitions_ = 0) := by
  constructor
  · intro n
    exact ⟨_, ticks_idle (s := BeepNTimes 0 d s) hidle rfl n, rfl, hidle⟩
  · intro v n
    exact ⟨_, ticks_idle (s := { BeepNTimes 0 d s with pending_pattern_ := v }) hidle rfl n,
      rfl, hidle⟩

/-- Witness for C16: `BeepNTimes(0, 500)` after start. -/
theorem repeat_count_zero_noop_witness :
    init.repetitions_ = 0 ∧
    ((∀ n, ∃ s1, ticks (n + 1) (BeepNTimes 0 500 init) = some s1 ∧
      s1.out = false ∧ s1.repetitions_ = 0) ∧
    (∀ v n, ∃ s1, ticks (n + 1) { BeepNTimes 0 500 init with pending_pattern_ := v } = some s1 ∧
      s1.out = false ∧ s1.repetitions_ = 0)) :=
  ⟨rfl, repeat_count_zero_noop 500 init rfl⟩

/-- C19.  Exact shape of the cadence pattern: for every duration `d` with
`32 * d / 1000 ≤ 31`, writing `t = 16 * d / 1000` and `W = 32 * d / 1000`,
`BeepNTimes(n, d)` sets the pending pattern to `2 ^ W - 2 ^ t`, i.e. bits `[t, W)` set
and every other bit clear, where `W - t` is `t` or `t + 1`, and the pending repetition
count to `n`; played from a reachable idle state with `n ≤ 255`, every one of the
`n * W` ticks returns and each cycle of `W` ticks is `W - t` ON ticks followed by `t` OFF
ticks. -/
theorem BeepNTimes_exact_shape (n d : Nat) (s : State) (h : 32 * d / 1000 ≤ 31) :
    (BeepNTimes n d s).pending_pattern_ = 2 ^ (32 * d / 1000) - 2 ^ (16 * d / 1000) ∧
    (∀ i, (BeepNTimes n d s).pending_pattern_.testBit i =
      decide (16 * d / 1000 ≤ i ∧ i < 32 * d / 1000)) ∧
    (32 * d / 1000 - 16 * d / 1000 = 16 * d / 1000 ∨
      32 * d / 1000 - 16 * d / 1000 = 16 * d / 1000 + 1) ∧
    (BeepNTimes n d s).pending_repetions_ = n ∧
    (Reachable s → s.repetitions_ = 0 → n ≤ 255 →
      ∀ k, 1 ≤ k → k ≤ n * (32 * d / 1000) →
        ∃ s1, ticks k (BeepNTimes n d s) = some s1 ∧
          (s1.out = true ↔
            (k - 1) % (32 * d / 1000) < 32 * d / 1000 - 16 * d / 1000)) := by
  have hpat := BeepNTimes_pending n d s h
  have htW : 16 * d / 1000 ≤ 32 * d / 1000 := by omega
  refine ⟨hpat, ?_, by omega, rfl, ?_⟩
  · intro i
    rw [hpat, testBit_two_pow_sub_two_pow htW]
  · intro hs hidle hn k hk1 hk
    obtain ⟨_, _, _, _, h5, _, _⟩ := Reachable_Inv hs
    obtain ⟨j, rfl⟩ : ∃ j, k = j + 1 := ⟨k - 1, by omega⟩
    have hW : 0 < 32 * d / 1000 := by
      by_contra h0
      have h00 : 32 * d / 1000 = 0 := by omega
      rw [h00, Nat.mul_zero] at hk
      omega
    have hlt : 16 * d / 1000 < 32 * d / 1000 := by omega
    have hL := bitLength_cadence hlt
    have hpow : 2 ^ (16 * d / 1000) < 2 ^ (32 * d / 1000) :=
      Nat.pow_lt_pow_right (by decide) hlt
    have hpow32 : 2 ^ (32 * d / 1000) < 2 ^ 32 := Nat.pow_lt_pow_right (by decide) (by omega)
    obtain ⟨s1, g1, g2, _⟩ := playback (p := 2 ^ (32 * d / 1000) - 2 ^ (16 * d / 1000))
      (r := n) (s := BeepNTimes n d s) (h5 hidle) hidle hpat rfl (Nat.sub_ne_zero_of_lt hpow)
      (Nat.lt_of_le_of_lt (Nat.sub_le _ _) hpow32) (by omega) j (by rw [hL]; omega)
    refine ⟨s1, g1, ?_⟩
    rw [g2, hL, testBit_two_pow_sub_two_pow htW, Nat.add_sub_cancel, decide_eq_true_iff]
    have hmod : j % (32 * d / 1000) < 32 * d / 1000 := Nat.mod_lt _ hW
    omega

/-- Witness for C19: `BeepNTimes(2, 100)` after start (`t = 1`, `W = 3`, pattern
`0b110`); the playback part is taken at the fifth tick. -/
theorem BeepNTimes_exact_shape_witness :
    32 * 100 / 1000 ≤ 31 ∧ Reachable init ∧ init.repetitions_ = 0 ∧
    (BeepNTimes 2 100 init).pending_pattern_ =
      2 ^ (32 * 100 / 1000) - 2 ^ (16 * 100 / 1000) ∧
    (∀ i, (BeepNTimes 2 100 init).pending_pattern_.testBit i =
      decide (16 * 100 / 1000 ≤ i ∧ i < 32 * 100 / 1000)) ∧
    (32 * 100 / 1000 - 16 * 100 / 1000 = 16 * 100 / 1000 ∨
      32 * 100 / 1000 - 16 * 100 / 1000 = 16 * 100 / 1000 + 1) ∧
    (BeepNTimes 2 100 init).pending_repetions_ = 2 ∧
    ∃ s1, ticks 5 (BeepNTimes 2 100 init) = some s1 ∧
      (s1.out = true ↔
        (5 - 1) % (32 * 100 / 1000) < 32 * 100 / 1000 - 16 * 100 / 1000) :=
  have H := BeepNTimes_exact_shape 2 100 init (by decide)
  ⟨by decide, Reachable.init, rfl, H.1, H.2.1, H.2.2.1, H.2.2.2.1,
    H.2.2.2.2 Reachable.init rfl (by decide) 5 (by decide) (by decide)⟩

/-- C17.  The cursor is re-initialised at every fresh load.  In every reachable state:
`repetitions_ = 0` implies `mask = 0`; on the tick that loads a nonzero pending pattern,
and on every tick of a playing engine that starts with a cleared mask, the search loops
set the cursor to the most-significant set bit of the pattern (`byte` the index of the
most-significant nonzero byte, `mask` the highest set bit of that byte), the pin is
driven ON and the cursor is then advanced; and every tick of a playing engine that
changes `repetitions_` leaves the mask cleared, so that the next repetition starts this
way as well. -/
theorem cursor_reinitialised (s : State) (hs : Reachable s) :
    (s.repetitions_ = 0 → s.mask = 0) ∧
    (s.repetitions_ = 0 → s.pending_repetions_ ≠ 0 → s.pending_pattern_ ≠ 0 →
      ∃ b m s1, MsbCursor s.pending_pattern_ b m ∧
        s1 = advance (BuzzerOn { s with
          pattern := s.pending_pattern_, repetitions_ := s.pending_repetions_,
          pending_repetions_ := 0, byte := b, mask := m }) ∧
        UpdateBuzzer s = some s1 ∧ s1.out = true) ∧
    (s.repetitions_ ≠ 0 → s.mask = 0 →
      ∃ b m s1, MsbCursor s.pattern b m ∧
        s1 = advance (BuzzerOn { s with byte := b, mask := m }) ∧
        UpdateBuzzer s = some s1 ∧ s1.out = true) ∧
    (s.repetitions_ ≠ 0 → ∀ s1, UpdateBuzzer s = some s1 →
      s1.repetitions_ ≠ s.repetitions_ → s1.mask = 0) := by
  have hinv := Reachable_Inv hs
  obtain ⟨h1, _, _, h4, h5, h6, _⟩ := hinv
  refine ⟨h5, ?_, ?_, ?_⟩
  · intro hidle hc hz
    obtain ⟨_, _, hmsb⟩ := search_msb hz h1
    refine ⟨_, _, _, hmsb, rfl, ?_, ?_⟩
    · unfold UpdateBuzzer
      rw [if_pos ⟨hc, hidle⟩]
      dsimp only
      rw [if_neg hz]
      exact play_fresh (s := { s with
        pattern := s.pending_pattern_, repetitions_ := s.pending_repetions_,
        pending_repetions_ := 0 }) hc (h5 hidle) hz h1
    · rw [advance_out]
      rfl
  · intro hr hm
    obtain ⟨_, _, hmsb⟩ := search_msb (h6 hr) h4
    refine ⟨_, _, _, hmsb, rfl, ?_, ?_⟩
    · unfold UpdateBuzzer
      rw [if_neg (fun h => hr h.2)]
      exact play_fresh hr hm (h6 hr) h4
    · rw [advance_out]
      rfl
  · intro hr s1 ht hne
    obtain ⟨_, _, _, hcount⟩ := tick_playing (Reachable_Inv hs) hr ht
    rcases hcount with h | ⟨_, hm⟩
    · exact absurd h hne
    · exact hm

/-- Witness for C17: `BeepPattern(0x500)` after start. -/
theorem cursor_reinitialised_witness :
    Reachable (BeepPattern 0x500 init) ∧
    (((BeepPattern 0x500 init).repetitions_ = 0 → (BeepPattern 0x500 init).mask = 0) ∧
    ((BeepPattern 0x500 init).repetitions_ = 0 →
      (BeepPattern 0x500 init).pending_repetions_ ≠ 0 →
      (BeepPattern 0x500 init).pending_pattern_ ≠ 0 →
      ∃ b m s1, MsbCursor (BeepPattern 0x500 init).pending_pattern_ b m ∧
        s1 = advance (BuzzerOn { BeepPattern 0x500 init with
          pattern := (BeepPattern 0x500 init).pending_pattern_,
          repetitions_ := (BeepPattern 0x500 init).pending_repetions_,
          pending_repetions_ := 0, byte := b, mask := m }) ∧
        UpdateBuzzer (BeepPattern 0x500 init) = some s1 ∧ s1.out = true) ∧
    ((BeepPattern 0x500 init).repetitions_ ≠ 0 → (BeepPattern 0x500 init).mask = 0 →
      ∃ b m s1, MsbCursor (BeepPattern 0x500 init).pattern b m ∧
        s1 = advance (BuzzerOn { BeepPattern 0x500 init with byte := b, mask := m }) ∧
        UpdateBuzzer (BeepPattern 0x500 init) = some s1 ∧ s1.out = true) ∧
    ((BeepPattern 0x500 init).repetitions_ ≠ 0 →
      ∀ s1, UpdateBuzzer (BeepPattern 0x500 init) = some s1 →
        s1.repetitions_ ≠ (BeepPattern 0x500 init).repetitions_ → s1.mask = 0)) :=
  have hreach : Reachable (BeepPattern 0x500 init) :=
    Reachable.submit (Request.pattern 0x500) (by decide : (0x500 : Nat) < 2 ^ 32)
      Reachable.init
  ⟨hreach, cursor_reinitialised (BeepPattern 0x500 init) hreach⟩

/-- C18.  The most-significant-bit search is safe.  In every reachable state:
`repetitions_ > 0` implies that the active pattern is nonzero; a call of `UpdateBuzzer`
always returns (no read outside `pattern.bytes`, no endless loop); whenever the search
loops run — on the tick that loads a nonzero pending pattern, and on a tick of a playing
engine with a cleared mask — the byte loop stops at an index in `0 .. 3` and the mask
loop stops with a nonzero single-bit mask; and `repetitions_` is never decremented at
`0`: a tick keeps the count or lowers it by one from a nonzero value (the count it
starts from being the pending one on a loading tick). -/
theorem msb_search_safe (s : State) (hs : Reachable s) :
    (s.repetitions_ ≠ 0 → s.pattern ≠ 0) ∧
    (∃ s1, UpdateBuzzer s = some s1) ∧
    (s.repetitions_ = 0 → s.pending_repetions_ ≠ 0 → s.pending_pattern_ ≠ 0 →
      ∃ b m, findByte s.pending_pattern_ 3 = some b ∧ b ≤ 3 ∧
        findMask (bytes s.pending_pattern_ b) 8 0x80 = some m ∧
        m ≠ 0 ∧ ∃ j, j < 8 ∧ m = 2 ^ j) ∧
    (s.repetitions_ ≠ 0 → s.mask = 0 →
      ∃ b m, findByte s.pattern 3 = some b ∧ b ≤ 3 ∧
        findMask (bytes s.pattern b) 8 0x80 = some m ∧
        m ≠ 0 ∧ ∃ j, j < 8 ∧ m = 2 ^ j) ∧
    (∀ s1, UpdateBuzzer s = some s1 →
      (s.repetitions_ ≠ 0 →
        s1.repetitions_ = s.repetitions_ ∨ s1.repetitions_ + 1 = s.repetitions_) ∧
      (s.repetitions_ = 0 →
        s1.repetitions_ = 0 ∨ s1.repetitions_ = s.pending_repetions_ ∨
          s1.repetitions_ + 1 = s.pending_repetions_)) := by
  have hinv := Reachable_Inv hs
  obtain ⟨h1, h2, _, h4, h5, h6, _⟩ := hinv
  have hsearch : ∀ p, p ≠ 0 → p < 2 ^ 32 →
      ∃ b m, findByte p 3 = some b ∧ b ≤ 3 ∧ findMask (bytes p b) 8 0x80 = some m ∧
        m ≠ 0 ∧ ∃ j, j < 8 ∧ m = 2 ^ j := by
    intro p hp h32
    obtain ⟨g1, g2, g3, _⟩ := search_msb hp h32
    exact ⟨_, _, g1, g3, g2, Nat.ne_of_gt (Nat.two_pow_pos _), Nat.log2 p % 8,
      Nat.mod_lt _ (by decide), rfl⟩
  refine ⟨h6, ?_, ?_, ?_, ?_⟩
  · obtain ⟨s1, g1, _⟩ := UpdateBuzzer_Inv (Reachable_Inv hs)
    exact ⟨s1, g1⟩
  · intro _ _ hz
    exact hsearch _ hz h1
  · intro hr _
    exact hsearch _ (h6 hr) h4
  · intro s1 ht
    constructor
    · intro hr
      obtain ⟨_, _, _, hcount⟩ := tick_playing (Reachable_Inv hs) hr ht
      rcases hcount with h | ⟨h, _⟩
      · exact Or.inl h
      · exact Or.inr h
    · intro hidle
      by_cases hc : s.pending_repetions_ = 0
      · rw [UpdateBuzzer_idle hidle hc] at ht
        have hs1 := Option.some.inj ht
        subst hs1
        exact Or.inl hidle
      · by_cases hz : s.pending_pattern_ = 0
        · obtain ⟨s2, g1, g2, _⟩ := UpdateBuzzer_zero_pending hidle hz
          rw [g1] at ht
          have hs1 := Option.some.inj ht
          subst hs1
          exact Or.inl g2
        · obtain ⟨s2, g1, _, _, _, _, g6⟩ :=
            first_tick (h5 hidle) hidle rfl rfl hz h1 hc h2
          rw [g1] at ht
          have hs1 := Option.some.inj ht
          subst hs1
          have hL := bitLength_pos hz
          by_cases hL1 : bitLength s.pending_pattern_ = 1
          · rw [hL1] at g6
            right
            right
            rw [g6]
            omega
          · rw [Nat.div_eq_of_lt (by omega)] at g6
            right
            left
            exact g6

/-- Witness for C18: the state `lastTick`, whose tick counts `repetitions_` down from `1`
to `0`. -/
theorem msb_search_safe_witness :
    Reachable lastTick ∧
    ((lastTick.repetitions_ ≠ 0 → lastTick.pattern ≠ 0) ∧
    (∃ s1, UpdateBuzzer lastTick = some s1) ∧
    (lastTick.repetitions_ = 0 → lastTick.pending_repetions_ ≠ 0 →
      lastTick.pending_pattern_ ≠ 0 →
      ∃ b m, findByte lastTick.pending_pattern_ 3 = some b ∧ b ≤ 3 ∧
        findMask (bytes lastTick.pending_pattern_ b) 8 0x80 = some m ∧
        m ≠ 0 ∧ ∃ j, j < 8 ∧ m = 2 ^ j) ∧
    (lastTick.repetitions_ ≠ 0 → lastTick.mask = 0 →
      ∃ b m, findByte lastTick.pattern 3 = some b ∧ b ≤ 3 ∧
        findMask (bytes lastTick.pattern b) 8 0x80 = some m ∧
        m ≠ 0 ∧ ∃ j, j < 8 ∧ m = 2 ^ j) ∧
    (∀ s1, UpdateBuzzer lastTick = some s1 →
      (lastTick.repetitions_ ≠ 0 →
        s1.repetitions_ = lastTick.repetitions_ ∨
          s1.repetitions_ + 1 = lastTick.repetitions_) ∧
      (lastTick.repetitions_ = 0 →
        s1.repetitions_ = 0 ∨ s1.repetitions_ = lastTick.pending_repetions_ ∨
          s1.repetitions_ + 1 = lastTick.pending_repetions_))) :=
  ⟨Reachable_lastTick, msb_search_safe lastTick Reachable_lastTick⟩

/-- C20.  Gapless hand-off to a waiting request: in every reachable state in which a call
of `UpdateBuzzer` brings `repetitions_` from nonzero to `0` while the pending slot holds
a nonzero pattern `q` with a nonzero repetition count, the immediately following call of
`UpdateBuzzer` returns, loads `q`, empties the pending slot and drives the pin ON; no OFF
tick is inserted between the two patterns. -/
theorem gapless_handoff (s s1 : State) (hs : Reachable s) (hr : s.repetitions_ ≠ 0)
    (ht : UpdateBuzzer s = some s1) (h0 : s1.repetitions_ = 0)
    (hq : s.pending_pattern_ ≠ 0) (hc : s.pending_repetions_ ≠ 0) :
    ∃ s2, UpdateBuzzer s1 = some s2 ∧
      s2.pattern = s.pending_pattern_ ∧
      s2.pending_repetions_ = 0 ∧
      s2.out = true := by
  obtain ⟨g1, g2, _, _⟩ := tick_playing (Reachable_Inv hs) hr ht
  have hs1 : Reachable s1 := Reachable.tick hs ht
  obtain ⟨h1, h2, _, _, h5, _, _⟩ := Reachable_Inv hs1
  rw [g1] at h1
  rw [g2] at h2
  obtain ⟨s2, f1, f2, _, f4, f5, _⟩ := first_tick (h5 h0) h0 g1 g2 hq h1 hc h2
  exact ⟨s2, f1, f5, f4, f2⟩

/-- Witness for C20: the last tick of the pattern `0b11` with `BeepPattern(0b101)`
waiting. -/
theorem gapless_handoff_witness :
    Reachable lastTick ∧ lastTick.repetitions_ ≠ 0 ∧
    UpdateBuzzer lastTick = some afterLastTick ∧ afterLastTick.repetitions_ = 0 ∧
    lastTick.pending_pattern_ ≠ 0 ∧ lastTick.pending_repetions_ ≠ 0 ∧
    ∃ s2, UpdateBuzzer afterLastTick = some s2 ∧
      s2.pattern = lastTick.pending_pattern_ ∧
      s2.pending_repetions_ = 0 ∧
      s2.out = true :=
  ⟨Reachable_lastTick, by decide, eval_lastTick, rfl, by decide, by decide,
    gapless_handoff lastTick afterLastTick Reachable_lastTick (by decide) eval_lastTick rfl
      (by decide) (by decide)⟩

end Buzzer
